import Mathlib

/-!
Verification development for a modal mu-calculus satisfiability pipeline:
formula AST, alternating parity tree automaton (APTA) with priority
propagation, game arena, tracking NPA, boolean label encoding for
determinization, and the final parity game with PGSolver emission.
The definitions shallowly embed the corresponding source functions.
-/

namespace MuCalc

/-- Formula AST: tagged tuples in the source, one constructor per operator. -/
inductive Formula where
  | lit (b : Bool)
  | prop (p : String)
  | var (x : String)
  | neg (f : Formula)
  | and (f g : Formula)
  | or (f g : Formula)
  | dia (f : Formula)
  | box (f : Formula)
  | mu (x : String) (f : Formula)
  | nu (x : String) (f : Formula)
deriving DecidableEq, Repr

/-- `variable_occurs(var, formula)`: free occurrence test; a fixpoint binding
the same name blocks the search. -/
def variable_occurs (v : String) : Formula → Bool
  | .var x => x = v
  | .mu x b => if x = v then false else variable_occurs v b
  | .nu x b => if x = v then false else variable_occurs v b
  | .and f g => variable_occurs v f || variable_occurs v g
  | .or f g => variable_occurs v f || variable_occurs v g
  | .neg f => variable_occurs v f
  | .dia f => variable_occurs v f
  | .box f => variable_occurs v f
  | _ => false

/-- `buscar_siguiente_fixpoint`: first fixpoint subformula along the principal
path (left argument first for binary connectives). -/
def buscar_siguiente_fixpoint : Formula → Option Formula
  | .mu x b => some (.mu x b)
  | .nu x b => some (.nu x b)
  | .and f g => (buscar_siguiente_fixpoint f).orElse (fun _ => buscar_siguiente_fixpoint g)
  | .or f g => (buscar_siguiente_fixpoint f).orElse (fun _ => buscar_siguiente_fixpoint g)
  | .neg f => buscar_siguiente_fixpoint f
  | .dia f => buscar_siguiente_fixpoint f
  | .box f => buscar_siguiente_fixpoint f
  | _ => none

def is_mu : Formula → Bool
  | .mu _ _ => true
  | _ => false

def is_fp : Formula → Bool
  | .mu _ _ => true
  | .nu _ _ => true
  | _ => false

def fp_var : Formula → String
  | .mu x _ => x
  | .nu x _ => x
  | _ => ""

def fp_body : Formula → Formula
  | .mu _ b => b
  | .nu _ b => b
  | f => f

theorem buscar_is_fp : ∀ f fp, buscar_siguiente_fixpoint f = some fp → is_fp fp = true := by
  intro f
  induction f with
  | mu x b ih => intro fp h; simp [buscar_siguiente_fixpoint] at h; subst h; rfl
  | nu x b ih => intro fp h; simp [buscar_siguiente_fixpoint] at h; subst h; rfl
  | and f g ihf ihg =>
      intro fp h
      simp only [buscar_siguiente_fixpoint] at h
      rcases hf : buscar_siguiente_fixpoint f with _ | v
      · rw [hf] at h; simp [Option.orElse] at h; exact ihg fp h
      · rw [hf] at h; simp [Option.orElse] at h; subst h; exact ihf v hf
  | or f g ihf ihg =>
      intro fp h
      simp only [buscar_siguiente_fixpoint] at h
      rcases hf : buscar_siguiente_fixpoint f with _ | v
      · rw [hf] at h; simp [Option.orElse] at h; exact ihg fp h
      · rw [hf] at h; simp [Option.orElse] at h; subst h; exact ihf v hf
  | neg f ih => intro fp h; exact ih fp h
  | dia f ih => intro fp h; exact ih fp h
  | box f ih => intro fp h; exact ih fp h
  | lit b => intro fp h; simp [buscar_siguiente_fixpoint] at h
  | prop p => intro fp h; simp [buscar_siguiente_fixpoint] at h
  | var x => intro fp h; simp [buscar_siguiente_fixpoint] at h

/-- Executable structural size, used as fuel for the `alternation_depth`
recursion. -/
def fsize : Formula → Nat
  | .lit _ => 1
  | .prop _ => 1
  | .var _ => 1
  | .neg f => fsize f + 1
  | .and f g => fsize f + fsize g + 1
  | .or f g => fsize f + fsize g + 1
  | .dia f => fsize f + 1
  | .box f => fsize f + 1
  | .mu _ b => fsize b + 1
  | .nu _ b => fsize b + 1

theorem buscar_size : ∀ f fp, buscar_siguiente_fixpoint f = some fp → fsize fp ≤ fsize f := by
  intro f
  induction f with
  | mu x b ih => intro fp h; simp [buscar_siguiente_fixpoint] at h; subst h; exact le_rfl
  | nu x b ih => intro fp h; simp [buscar_siguiente_fixpoint] at h; subst h; exact le_rfl
  | and f g ihf ihg =>
      intro fp h
      simp only [buscar_siguiente_fixpoint] at h
      rcases hf : buscar_siguiente_fixpoint f with _ | v
      · rw [hf] at h; simp [Option.orElse] at h
        have := ihg fp h; simp [fsize]; omega
      · rw [hf] at h; simp [Option.orElse] at h; subst h
        have := ihf v hf; simp [fsize]; omega
  | or f g ihf ihg =>
      intro fp h
      simp only [buscar_siguiente_fixpoint] at h
      rcases hf : buscar_siguiente_fixpoint f with _ | v
      · rw [hf] at h; simp [Option.orElse] at h
        have := ihg fp h; simp [fsize]; omega
      · rw [hf] at h; simp [Option.orElse] at h; subst h
        have := ihf v hf; simp [fsize]; omega
  | neg f ih => intro fp h; have := ih fp h; simp [fsize]; omega
  | dia f ih => intro fp h; have := ih fp h; simp [fsize]; omega
  | box f ih => intro fp h; have := ih fp h; simp [fsize]; omega
  | lit b => intro fp h; simp [buscar_siguiente_fixpoint] at h
  | prop p => intro fp h; simp [buscar_siguiente_fixpoint] at h
  | var x => intro fp h; simp [buscar_siguiente_fixpoint] at h

theorem fp_body_size : ∀ fp, is_fp fp = true → fsize (fp_body fp) < fsize fp := by
  intro fp h
  cases fp <;> simp [is_fp] at h <;> simp [fp_body, fsize]

/-- Fuel-indexed body of `alternation_depth`; the recursion of the source
strictly decreases the size of its argument, so `fsize f` fuel suffices. -/
def alternation_depth_fuel : Nat → Formula → Nat
  | 0, _ => 0
  | fuel + 1, f =>
    match buscar_siguiente_fixpoint f with
    | none => 0
    | some fp =>
      match buscar_siguiente_fixpoint (fp_body fp) with
      | some inner =>
          (if variable_occurs (fp_var fp) (fp_body inner) && (is_mu fp != is_mu inner)
            then 1 else 0) + alternation_depth_fuel fuel inner
      | none => if variable_occurs (fp_var fp) (fp_body fp) then 1 else 0

/-- `alternation_depth`: strict fixpoint alternations along the principal
subformula path, counting a step only when the outer variable occurs in the
inner body and the binders differ. -/
def alternation_depth (f : Formula) : Nat :=
  alternation_depth_fuel (fsize f) f

theorem fsize_pos (f : Formula) : 0 < fsize f := by
  cases f <;> simp [fsize]

theorem alternation_depth_fuel_congr :
    ∀ m1 m2 f, fsize f ≤ m1 → fsize f ≤ m2 →
      alternation_depth_fuel m1 f = alternation_depth_fuel m2 f := by
  intro m1
  induction m1 with
  | zero => intro m2 f h1 _; exact absurd (fsize_pos f) (by omega)
  | succ m ih =>
      intro m2 f h1 h2
      match m2, h2 with
      | 0, h2 => exact absurd (fsize_pos f) (by omega)
      | m2 + 1, h2 =>
        simp only [alternation_depth_fuel]
        rcases hb : buscar_siguiente_fixpoint f with _ | fp
        · rfl
        · dsimp only
          rcases hi : buscar_siguiente_fixpoint (fp_body fp) with _ | inner
          · rfl
          · dsimp only
            have s1 : fsize fp ≤ fsize f := buscar_size f fp hb
            have s2 : fsize (fp_body fp) < fsize fp :=
              fp_body_size fp (buscar_is_fp f fp hb)
            have s3 : fsize inner ≤ fsize (fp_body fp) := buscar_size _ inner hi
            rw [ih m2 inner (by omega) (by omega)]

/-- The defining equation of `alternation_depth` in the shape of the source:
find the first fixpoint, look for the next fixpoint inside its body, add one
for a strict alternation in which the outer variable occurs, and recurse. -/
theorem alternation_depth_eq (f : Formula) :
    alternation_depth f =
      match buscar_siguiente_fixpoint f with
      | none => 0
      | some fp =>
        match buscar_siguiente_fixpoint (fp_body fp) with
        | some inner =>
            (if variable_occurs (fp_var fp) (fp_body inner) && (is_mu fp != is_mu inner)
              then 1 else 0) + alternation_depth inner
        | none => if variable_occurs (fp_var fp) (fp_body fp) then 1 else 0 := by
  unfold alternation_depth
  have h0 : 0 < fsize f := fsize_pos f
  obtain ⟨m, hm⟩ : ∃ m, fsize f = m + 1 := ⟨fsize f - 1, by omega⟩
  rw [hm]
  simp only [alternation_depth_fuel]
  rcases hb : buscar_siguiente_fixpoint f with _ | fp
  · rfl
  · dsimp only
    rcases hi : buscar_siguiente_fixpoint (fp_body fp) with _ | inner
    · rfl
    · dsimp only
      have s1 : fsize fp ≤ fsize f := buscar_size f fp hb
      have s2 : fsize (fp_body fp) < fsize fp :=
        fp_body_size fp (buscar_is_fp f fp hb)
      have s3 : fsize inner ≤ fsize (fp_body fp) := buscar_size _ inner hi
      rw [alternation_depth_fuel_congr m (fsize inner) inner (by omega) (by omega)]

/-- `alternation_level`: priority of a fixpoint state computed from the
alternation depth, with floor division as in the source. -/
def alternation_level (chi : Formula) : Int :=
  match chi with
  | .mu _ _ => 2 * (((alternation_depth chi + 1) / 2 : Nat) : Int) - 1
  | .nu _ _ => 2 * (((alternation_depth chi / 2 : Nat)) : Int)
  | _ => 0

/-- C3 (counterexample): on χ = μX.p the alternation depth is 0 and
`alternation_level` returns −1, not the claimed 2·⌈(d+1)/2⌉ − 1 = 1, and the
result is negative, contradicting the claimed non-negativity. -/
theorem alternation_level_claim_counterexample :
    alternation_depth (.mu "X" (.prop "p")) = 0 ∧
    alternation_level (.mu "X" (.prop "p")) = -1 ∧
    ¬ (alternation_level (.mu "X" (.prop "p")) =
        2 * (((alternation_depth (.mu "X" (.prop "p")) + 2) / 2 : Nat) : Int) - 1 ∧
       0 ≤ alternation_level (.mu "X" (.prop "p"))) := by
  decide

/-- C3 (amended): for a fixpoint χ with d = alternation_depth(χ),
`alternation_level` returns 2·⌊(d+1)/2⌋ − 1 on a μ-formula (an odd value,
equal to −1 when d = 0) and 2·⌊d/2⌋ on a ν-formula (an even, non-negative
value). -/
theorem alternation_level_floor_parity (x : String) (psi : Formula) :
    (alternation_level (.mu x psi) =
        2 * (((alternation_depth (.mu x psi) + 1) / 2 : Nat) : Int) - 1 ∧
      Odd (alternation_level (.mu x psi))) ∧
    (alternation_level (.nu x psi) =
        2 * (((alternation_depth (.nu x psi) / 2 : Nat)) : Int) ∧
      Even (alternation_level (.nu x psi)) ∧
      0 ≤ alternation_level (.nu x psi)) := by
  have hm : alternation_level (.mu x psi) =
      2 * (((alternation_depth (.mu x psi) + 1) / 2 : Nat) : Int) - 1 := rfl
  have hn : alternation_level (.nu x psi) =
      2 * (((alternation_depth (.nu x psi) / 2 : Nat)) : Int) := rfl
  refine ⟨⟨hm, ?_⟩, hn, ?_, ?_⟩
  · exact ⟨(((alternation_depth (.mu x psi) + 1) / 2 : Nat) : Int) - 1, by rw [hm]; ring⟩
  · exact ⟨(((alternation_depth (.nu x psi) / 2 : Nat)) : Int), by rw [hn]; ring⟩
  · rw [hn]; positivity

/-! ## Labels of the tracking NPA -/

inductive LType where
  | any
  | choice
  | state
deriving DecidableEq, Repr

/-- `Label.extra`: in the source it is `None`, a tuple of pairs (q, q') for
CHOICE labels, or an APTA state index for STATE labels. -/
inductive LExtra where
  | none
  | pairs (l : List (Nat × Nat))
  | idx (q : Nat)
deriving DecidableEq, Repr

structure Label where
  type : LType
  extra : LExtra
  aprops : List (String × Bool)
deriving DecidableEq, Repr

/-- `Label.__eq__`: compares `type` and `extra`, but the third conjunct of the
source compares `self.aprops` with `self.aprops`, so `aprops` is unconstrained. -/
def label_eq (l1 l2 : Label) : Bool :=
  decide (l1.type = l2.type) && decide (l1.extra = l2.extra) &&
    decide (l1.aprops = l1.aprops)

/-- `Label.__hash__` hashes the tuple (type, extra, aprops); we model the hash
through the hashed tuple itself. -/
def label_hash_key (l : Label) : LType × LExtra × List (String × Bool) :=
  (l.type, l.extra, l.aprops)

/-- C9 (code evaluated at the failing input): two labels that differ only in
`aprops` compare equal under `Label.__eq__`, yet their hashed tuples differ, so
equality is not structural over the full tuple shape and the `__eq__`/`__hash__`
contract for dictionary interning is broken. -/
theorem label_eq_ignores_aprops :
    label_eq ⟨.any, .none, [("p", true)]⟩ ⟨.any, .none, []⟩ = true ∧
    (⟨.any, .none, [("p", true)]⟩ : Label).aprops ≠ (⟨.any, .none, []⟩ : Label).aprops ∧
    label_hash_key ⟨.any, .none, [("p", true)]⟩ ≠ label_hash_key ⟨.any, .none, []⟩ := by
  refine ⟨rfl, by simp [Label.aprops], by simp [label_hash_key]⟩

/-! ## Substitution and the APTA builder -/

/-- `BaseParser._substitute_variable`: replaces every node (VAR, var) by expr;
the source does not track binding, so it substitutes under binders of the same
name as well. -/
def substitute_variable (ast : Formula) (v : String) (expr : Formula) : Formula :=
  match ast with
  | .var x => if x = v then expr else .var x
  | .lit b => .lit b
  | .prop p => .prop p
  | .neg f => .neg (substitute_variable f v expr)
  | .and f g => .and (substitute_variable f v expr) (substitute_variable g v expr)
  | .or f g => .or (substitute_variable f v expr) (substitute_variable g v expr)
  | .dia f => .dia (substitute_variable f v expr)
  | .box f => .box (substitute_variable f v expr)
  | .mu x b => .mu x (substitute_variable b v expr)
  | .nu x b => .nu x (substitute_variable b v expr)

/-- `APTA.get_priority`. -/
def get_priority (f : Formula) : Int :=
  if f = .lit true then 0
  else if f = .lit false then 1
  else match f with
    | .mu _ _ => alternation_level f
    | .nu _ _ => alternation_level f
    | _ => 0

/-- `APTA.is_local`. -/
def formula_is_local (f : Formula) : Bool :=
  match f with
  | .prop _ => true
  | .neg _ => true
  | .and _ _ => true
  | .or _ _ => true
  | .mu _ _ => true
  | .nu _ _ => true
  | .lit _ => true
  | _ => false

/-- `APTA.is_existential`. -/
def formula_is_existential (f : Formula) : Bool :=
  match f with
  | .or _ _ => true
  | .mu _ _ => true
  | .nu _ _ => true
  | .dia _ => true
  | .lit b => !b
  | _ => false

/-- Transition label of the APTA: `None` or a (proposition, bool) pair. -/
abbrev ELabel := Option (String × Bool)

/-- APTA state: formula value, classification flags, formula priority Ω′
(`omegap`), transition table (a dict from label to a set of target indices,
modelled as insertion-ordered association and target lists), and total
priority Ω (`omega`). -/
structure AState where
  value : Formula
  localq : Bool
  existential : Bool
  omegap : Int
  next : List (ELabel × List Nat)
  omega : Int
deriving DecidableEq, Repr

/-- `APTA.State.__init__` for a formula. -/
def mk_state (f : Formula) : AState :=
  { value := f
    localq := formula_is_local f
    existential := formula_is_existential f
    omegap := get_priority f
    next := []
    omega := 0 }

/-- First index satisfying a predicate (interning-table lookups). -/
def find_idx {α : Type} (p : α → Bool) : List α → Option Nat
  | [] => none
  | x :: xs => if p x then some 0 else (find_idx p xs).map (· + 1)

/-- Index of the state holding formula `f`, mirroring `state_map` lookups. -/
def apta_find (states : List AState) (f : Formula) : Option Nat :=
  find_idx (fun s => decide (s.value = f)) states

/-- `APTA.get_state`: returns the index of the state for `f`, creating it at
the end of the state list when absent. -/
def get_state (states : List AState) (f : Formula) : Nat × List AState :=
  match apta_find states f with
  | some i => (i, states)
  | none => (states.length, states ++ [mk_state f])

/-- Add an element to a set modelled as a duplicate-free list. -/
def add_to_set (l : List Nat) (x : Nat) : List Nat :=
  if x ∈ l then l else l ++ [x]

/-- Update the entry of `key` in an association list (creating it at the end,
like `dict.setdefault`), adding `target` to its target set. -/
def next_add (next : List (ELabel × List Nat)) (key : ELabel) (target : Nat) :
    List (ELabel × List Nat) :=
  match next with
  | [] => [(key, [target])]
  | (k, ts) :: rest =>
      if k = key then (k, add_to_set ts target) :: rest
      else (k, ts) :: next_add rest key target

/-- Replace the element at index `i`. -/
def modify_at (l : List α) (i : Nat) (g : α → α) : List α :=
  match l, i with
  | [], _ => []
  | x :: xs, 0 => g x :: xs
  | x :: xs, n + 1 => x :: modify_at xs n g

/-- `APTA._add_transition`: interns the target formula and appends the target
index under `label` in the source state's transition table. -/
def add_transition (states : List AState) (fromIdx : Nat) (label : ELabel)
    (target : Formula) : List AState :=
  let r := get_state states target
  modify_at r.2 fromIdx (fun s => { s with next := next_add s.next label r.1 })

/-- `APTA.expand_state`: adds the labelled successors of state `i` according
to its top operator.  Returns `none` on the operators the source treats as a
fatal error (a free variable or a connective outside the accepted AST shape,
including a negation whose argument is not a proposition). -/
def expand_state (states : List AState) (i : Nat) : Option (List AState) :=
  match (states.get? i).map (·.value) with
  | Option.none => none
  | some f =>
    match f with
    | .and f1 f2 => some (add_transition (add_transition states i none f1) i none f2)
    | .or f1 f2 => some (add_transition (add_transition states i none f1) i none f2)
    | .dia f1 => some (add_transition states i none f1)
    | .box f1 => some (add_transition states i none f1)
    | .mu x b => some (add_transition states i none (substitute_variable b x (.mu x b)))
    | .nu x b => some (add_transition states i none (substitute_variable b x (.nu x b)))
    | .prop p =>
        some (add_transition (add_transition states i (some (p, true)) (.lit true))
          i (some (p, false)) (.lit false))
    | .neg (.prop p) =>
        some (add_transition (add_transition states i (some (p, true)) (.lit false))
          i (some (p, false)) (.lit true))
    | .lit b => some (add_transition states i none (.lit b))
    | _ => none

/-- Worklist loop of `APTA.from_formula`: expand states in index order until
every state has been expanded, with explicit fuel. -/
def from_formula_aux (fuel : Nat) (states : List AState) (k : Nat) :
    Option (List AState) :=
  match fuel with
  | 0 => if k < states.length then none else some states
  | fuel + 1 =>
      if k < states.length then
        (expand_state states k).bind (fun s2 => from_formula_aux fuel s2 (k + 1))
      else some states

/-- `APTA.from_formula`: interns the root formula and runs the worklist. -/
def apta_from_formula (fuel : Nat) (f : Formula) : Option (List AState) :=
  from_formula_aux fuel (get_state [] f).2 0

/-! ## Reachability, SCCs and `compute_total_priority` -/

/-- Successors of `i` in the reachability digraph, as the source builds it:
all targets of all labelled transitions of state `i`. -/
def succs_of (states : List AState) (i : Nat) : List Nat :=
  match states.get? i with
  | some s => (s.next.map (·.2)).flatten
  | none => []

/-- Edge relation of the reachability digraph. -/
def edge_rel (states : List AState) (i j : Nat) : Prop :=
  j ∈ succs_of states i

/-- One round of saturation: add the successors of every current element. -/
def step_close (f : Nat → List Nat) (cur : List Nat) : List Nat :=
  cur.foldl (fun acc i => (f i).foldl add_to_set acc) cur

/-- Iterated saturation. -/
def closure_n (f : Nat → List Nat) (init : List Nat) : Nat → List Nat
  | 0 => init
  | m + 1 => step_close f (closure_n f init m)

/-- Set of states reachable from `i` (iterating once per state suffices). -/
def reach_set (states : List AState) (i : Nat) : List Nat :=
  closure_n (succs_of states) [i] states.length

theorem mem_add_to_set {l : List Nat} {x y : Nat} :
    y ∈ add_to_set l x ↔ y ∈ l ∨ y = x := by
  unfold add_to_set
  split
  · constructor
    · exact Or.inl
    · rintro (h1 | rfl)
      · exact h1
      · assumption
  · simp [List.mem_append]

theorem mem_foldl_add_to_set :
    ∀ (l acc : List Nat) (y : Nat),
      y ∈ l.foldl add_to_set acc ↔ y ∈ acc ∨ y ∈ l := by
  intro l
  induction l with
  | nil => simp
  | cons a l ih =>
      intro acc y
      rw [List.foldl_cons, ih, mem_add_to_set, List.mem_cons]
      tauto

theorem mem_foldl_step (f : Nat → List Nat) :
    ∀ (l acc : List Nat) (y : Nat),
      y ∈ l.foldl (fun acc i => (f i).foldl add_to_set acc) acc ↔
        y ∈ acc ∨ ∃ j, j ∈ l ∧ y ∈ f j := by
  intro l
  induction l with
  | nil => simp
  | cons a l ih =>
      intro acc y
      rw [List.foldl_cons, ih, mem_foldl_add_to_set]
      simp only [List.mem_cons]
      constructor
      · rintro ((h | h) | ⟨j, hj, hy⟩)
        · exact Or.inl h
        · exact Or.inr ⟨a, Or.inl rfl, h⟩
        · exact Or.inr ⟨j, Or.inr hj, hy⟩
      · rintro (h | ⟨j, (rfl | hj), hy⟩)
        · exact Or.inl (Or.inl h)
        · exact Or.inl (Or.inr hy)
        · exact Or.inr ⟨j, hj, hy⟩

theorem mem_step_close (f : Nat → List Nat) (cur : List Nat) (y : Nat) :
    y ∈ step_close f cur ↔ y ∈ cur ∨ ∃ j, j ∈ cur ∧ y ∈ f j := by
  unfold step_close
  exact mem_foldl_step f cur cur y

theorem closure_mono (f : Nat → List Nat) (init : List Nat) :
    ∀ m k, m ≤ k → ∀ y, y ∈ closure_n f init m → y ∈ closure_n f init k := by
  intro m k hk
  induction k with
  | zero =>
      intro y hy
      have : m = 0 := by omega
      subst this
      exact hy
  | succ k ih =>
      intro y hy
      rcases Nat.lt_or_ge m (k + 1) with h | h
      · have hy2 : y ∈ closure_n f init k := ih (by omega) y hy
        rw [closure_n, mem_step_close]
        exact Or.inl hy2
      · have : m = k + 1 := by omega
        subst this
        exact hy

theorem closure_sound (f : Nat → List Nat) (i : Nat) :
    ∀ m y, y ∈ closure_n f [i] m →
      Relation.ReflTransGen (fun a b => b ∈ f a) i y := by
  intro m
  induction m with
  | zero =>
      intro y hy
      simp [closure_n] at hy
      subst hy
      exact Relation.ReflTransGen.refl
  | succ m ih =>
      intro y hy
      rw [closure_n, mem_step_close] at hy
      rcases hy with h | ⟨j, hj, hy⟩
      · exact ih y h
      · exact Relation.ReflTransGen.tail (ih j hj) hy

theorem closure_bound (f : Nat → List Nat) (n i : Nat)
    (hb : ∀ a b, b ∈ f a → b < n) (hi : i < n) :
    ∀ m y, y ∈ closure_n f [i] m → y < n := by
  intro m
  induction m with
  | zero =>
      intro y hy
      simp [closure_n] at hy
      subst hy
      exact hi
  | succ m ih =>
      intro y hy
      rw [closure_n, mem_step_close] at hy
      rcases hy with h | ⟨j, _, hy⟩
      · exact ih y h
      · exact hb j y hy

theorem add_to_set_nodup {l : List Nat} (h : l.Nodup) (x : Nat) :
    (add_to_set l x).Nodup := by
  unfold add_to_set
  split
  · exact h
  · simp [List.nodup_append, h]
    assumption

theorem foldl_add_to_set_nodup :
    ∀ (l acc : List Nat), acc.Nodup → (l.foldl add_to_set acc).Nodup := by
  intro l
  induction l with
  | nil => intro acc h; exact h
  | cons a l ih => intro acc h; exact ih _ (add_to_set_nodup h a)

theorem foldl_step_nodup (f : Nat → List Nat) :
    ∀ (l acc : List Nat), acc.Nodup →
      (l.foldl (fun acc i => (f i).foldl add_to_set acc) acc).Nodup := by
  intro l
  induction l with
  | nil => intro acc h; exact h
  | cons a l ih => intro acc h; exact ih _ (foldl_add_to_set_nodup _ _ h)

theorem closure_nodup (f : Nat → List Nat) (i : Nat) :
    ∀ m, (closure_n f [i] m).Nodup := by
  intro m
  induction m with
  | zero => simp [closure_n]
  | succ m ih => exact foldl_step_nodup f _ _ ih

/-- A saturation step that adds nothing new keeps adding nothing new. -/
theorem closure_stable_from (f : Nat → List Nat) (i m : Nat)
    (hstab : ∀ y, y ∈ closure_n f [i] (m + 1) → y ∈ closure_n f [i] m) :
    ∀ k y, y ∈ closure_n f [i] k → y ∈ closure_n f [i] m := by
  intro k
  induction k with
  | zero => exact fun y hy => closure_mono f [i] 0 m (Nat.zero_le m) y hy
  | succ k ih =>
      intro y hy
      rw [closure_n, mem_step_close] at hy
      rcases hy with h | ⟨j, hj, hy⟩
      · exact ih y h
      · apply hstab
        rw [closure_n, mem_step_close]
        exact Or.inr ⟨j, ih j hj, hy⟩

theorem closure_card_le (f : Nat → List Nat) (n i : Nat)
    (hb : ∀ a b, b ∈ f a → b < n) (hi : i < n) (m : Nat) :
    (closure_n f [i] m).length ≤ n := by
  have hnd := closure_nodup f i m
  have hsub : (closure_n f [i] m).toFinset ⊆ Finset.range n := by
    intro y hy
    rw [List.mem_toFinset] at hy
    rw [Finset.mem_range]
    exact closure_bound f n i hb hi m y hy
  calc (closure_n f [i] m).length = (closure_n f [i] m).toFinset.card :=
        (List.toFinset_card_of_nodup hnd).symm
    _ ≤ (Finset.range n).card := Finset.card_le_card hsub
    _ = n := Finset.card_range n

theorem closure_grow_or_stab (f : Nat → List Nat) (i m : Nat) :
    (∀ y, y ∈ closure_n f [i] (m + 1) → y ∈ closure_n f [i] m) ∨
      (closure_n f [i] m).length + 1 ≤ (closure_n f [i] (m + 1)).length := by
  by_cases hstab : ∀ y, y ∈ closure_n f [i] (m + 1) → y ∈ closure_n f [i] m
  · exact Or.inl hstab
  · right
    push_neg at hstab
    obtain ⟨y, hy1, hy2⟩ := hstab
    have hsub : (closure_n f [i] m).toFinset ⊂ (closure_n f [i] (m + 1)).toFinset := by
      constructor
      · intro z hz
        rw [List.mem_toFinset] at hz ⊢
        exact closure_mono f [i] m (m + 1) (by omega) z hz
      · intro hcon
        exact hy2 (List.mem_toFinset.mp (hcon (List.mem_toFinset.mpr hy1)))
    have h1 := Finset.card_lt_card hsub
    rw [List.toFinset_card_of_nodup (closure_nodup f i m),
      List.toFinset_card_of_nodup (closure_nodup f i (m + 1))] at h1
    omega

/-- Within `n` rounds the saturation from a single vertex of an `n`-bounded
graph stabilises. -/
theorem closure_stab_exists (f : Nat → List Nat) (n i : Nat)
    (hb : ∀ a b, b ∈ f a → b < n) (hi : i < n) :
    ∃ m, m < n ∧ ∀ y, y ∈ closure_n f [i] (m + 1) → y ∈ closure_n f [i] m := by
  by_contra hcon
  push_neg at hcon
  have hgrow : ∀ m, m ≤ n → m + 1 ≤ (closure_n f [i] m).length := by
    intro m
    induction m with
    | zero => intro _; simp [closure_n]
    | succ m ih =>
        intro hm
        rcases closure_grow_or_stab f i m with h | h
        · obtain ⟨y, hy1, hy2⟩ := hcon m (by omega)
          exact absurd (h y hy1) hy2
        · have := ih (by omega)
          omega
  have h1 := hgrow n (le_refl n)
  have h2 := closure_card_le f n i hb hi n
  omega

theorem closure_all_le_n (f : Nat → List Nat) (n i : Nat)
    (hb : ∀ a b, b ∈ f a → b < n) (hi : i < n) :
    ∀ k y, y ∈ closure_n f [i] k → y ∈ closure_n f [i] n := by
  obtain ⟨m, hm, hstab⟩ := closure_stab_exists f n i hb hi
  intro k y hy
  exact closure_mono f [i] m n (by omega) y
    (closure_stable_from f i m hstab k y hy)

theorem closure_complete (f : Nat → List Nat) (n i : Nat)
    (hb : ∀ a b, b ∈ f a → b < n) (hi : i < n) :
    ∀ y, Relation.ReflTransGen (fun a b => b ∈ f a) i y →
      y ∈ closure_n f [i] n := by
  intro y h
  induction h with
  | refl =>
      apply closure_all_le_n f n i hb hi 0
      simp [closure_n]
  | tail hab hbc ih =>
      apply closure_all_le_n f n i hb hi (n + 1)
      rw [closure_n, mem_step_close]
      exact Or.inr ⟨_, ih, hbc⟩

/-- `reach_set` computes exactly reflexive-transitive reachability. -/
theorem mem_reach_iff (states : List AState)
    (hb : ∀ a b, b ∈ succs_of states a → b < states.length)
    {i : Nat} (hi : i < states.length) (y : Nat) :
    y ∈ reach_set states i ↔ Relation.ReflTransGen (edge_rel states) i y := by
  constructor
  · intro h
    exact closure_sound (succs_of states) i states.length y h
  · intro h
    exact closure_complete (succs_of states) states.length i hb hi y h

/-- Two states are in the same SCC iff each reaches the other.  This is what
the external `tarjan` library (modelled from the spec: "Find its SCCs
(Tarjan)") computes as its partition. -/
def same_scc (states : List AState) (i j : Nat) : Prop :=
  j ∈ reach_set states i ∧ i ∈ reach_set states j

instance (states : List AState) (i j : Nat) : Decidable (same_scc states i j) :=
  inferInstanceAs (Decidable (_ ∧ _))

/-- The SCC of `i`, listed in ascending state order. -/
def component (states : List AState) (i : Nat) : List Nat :=
  (List.range states.length).filter (fun j => decide (same_scc states i j))

theorem mem_component (states : List AState) (i j : Nat) :
    j ∈ component states i ↔ j < states.length ∧ same_scc states i j := by
  simp [component, List.mem_filter, List.mem_range]

theorem same_scc_refl (states : List AState)
    {i : Nat} (hi : i < states.length) : same_scc states i i := by
  have h : i ∈ reach_set states i := by
    apply closure_mono (succs_of states) [i] 0 states.length (Nat.zero_le _)
    simp [closure_n]
  exact ⟨h, h⟩

theorem same_scc_symm (states : List AState) {i j : Nat}
    (h : same_scc states i j) : same_scc states j i :=
  ⟨h.2, h.1⟩

theorem same_scc_trans (states : List AState)
    (hb : ∀ a b, b ∈ succs_of states a → b < states.length)
    {i j k : Nat} (hi : i < states.length)
    (h1 : same_scc states i j) (h2 : same_scc states j k) :
    same_scc states i k := by
  have hj : j < states.length :=
    closure_bound (succs_of states) states.length i hb hi states.length j h1.1
  have hk : k < states.length :=
    closure_bound (succs_of states) states.length j hb hj states.length k h2.1
  constructor
  · rw [mem_reach_iff states hb hi]
    exact Relation.ReflTransGen.trans
      ((mem_reach_iff states hb hi j).mp h1.1)
      ((mem_reach_iff states hb hj k).mp h2.1)
  · rw [mem_reach_iff states hb hk]
    exact Relation.ReflTransGen.trans
      ((mem_reach_iff states hb hk j).mp h2.2)
      ((mem_reach_iff states hb hj i).mp h1.2)

theorem filter_congr_list :
    ∀ (l : List Nat) (p q : Nat → Bool), (∀ x, x ∈ l → p x = q x) →
      l.filter p = l.filter q := by
  intro l
  induction l with
  | nil => intro p q _; rfl
  | cons a l ih =>
      intro p q h
      simp only [List.filter_cons]
      rw [h a (List.mem_cons_self a l), ih p q (fun x hx => h x (List.mem_cons_of_mem a hx))]

theorem component_congr (states : List AState)
    (hb : ∀ a b, b ∈ succs_of states a → b < states.length)
    {i j : Nat} (hi : i < states.length) (hj : j < states.length)
    (hs : same_scc states i j) :
    component states i = component states j := by
  apply filter_congr_list
  intro m _
  apply decide_eq_decide.mpr
  constructor
  · intro h
    exact same_scc_trans states hb hj (same_scc_symm states hs) h
  · intro h
    exact same_scc_trans states hb hi hs h

/-- Ω′ of state `q` (0 when the index is out of range). -/
def omegap_at (states : List AState) (q : Nat) : Int :=
  ((states.get? q).map (·.omegap)).getD 0

/-- Ω of state `q` (0 when the index is out of range). -/
def omega_at (states : List AState) (q : Nat) : Int :=
  ((states.get? q).map (·.omega)).getD 0

/-- `max` over a non-empty list, as Python's `max`. -/
def list_max : List Int → Int
  | [] => 0
  | [x] => x
  | x :: y :: rest => max x (list_max (y :: rest))

theorem le_list_max : ∀ (l : List Int) (x : Int), x ∈ l → x ≤ list_max l := by
  intro l
  induction l with
  | nil => intro x hx; cases hx
  | cons a l ih =>
      intro x hx
      rcases List.mem_cons.mp hx with rfl | hx
      · cases l with
        | nil => exact le_rfl
        | cons b rest => exact le_max_left _ _
      · cases l with
        | nil => cases hx
        | cons b rest => exact le_trans (ih x hx) (le_max_right _ _)

/-- The Ω the loop of `compute_total_priority` assigns to state `i`: 0 for a
self-loop-free singleton SCC, the maximum Ω′ over the SCC otherwise. -/
def total_priority (states : List AState) (i : Nat) : Int :=
  if component states i = [i] ∧ i ∉ succs_of states i then 0
  else list_max ((component states i).map (omegap_at states))

def map_idx_from (k : Nat) (g : Nat → α → α) : List α → List α
  | [] => []
  | x :: xs => g k x :: map_idx_from (k + 1) g xs

/-- `APTA.compute_total_priority`: builds the digraph, partitions it into
SCCs and assigns the total priority Ω of each state. -/
def compute_total_priority (states : List AState) : List AState :=
  map_idx_from 0 (fun i s => { s with omega := total_priority states i }) states

theorem get_map_idx_from (g : Nat → α → α) :
    ∀ (l : List α) (k i : Nat),
      (map_idx_from k g l).get? i = (l.get? i).map (g (k + i)) := by
  intro l
  induction l with
  | nil => intro k i; simp [map_idx_from]
  | cons x xs ih =>
      intro k i
      cases i with
      | zero => simp [map_idx_from]
      | succ i =>
          simp only [map_idx_from, List.get?_cons_succ]
          rw [ih (k + 1) i]
          have harith : k + 1 + i = k + (i + 1) := by omega
          rw [harith]

theorem omega_at_compute (states : List AState) (i : Nat)
    (hi : i < states.length) :
    omega_at (compute_total_priority states) i = total_priority states i := by
  unfold omega_at compute_total_priority
  rw [get_map_idx_from]
  rcases List.get?_eq_get hi with h
  rw [h]
  simp

theorem self_mem_component (states : List AState) {i : Nat}
    (hi : i < states.length) : i ∈ component states i :=
  (mem_component states i i).mpr ⟨hi, same_scc_refl states hi⟩

/-- C4 (amended): after `compute_total_priority`, states in the same SCC share
the same total priority Ω; a self-loop-free singleton SCC receives Ω = 0 (even
when its Ω′ is larger), and every other SCC receives the maximum Ω′ over its
members, which in particular dominates Ω′ of each member. -/
theorem compute_total_priority_scc_spec (states : List AState)
    (hb : ∀ a b, b ∈ succs_of states a → b < states.length)
    (i j : Nat) (hi : i < states.length) (hj : j < states.length) :
    (same_scc states i j →
      omega_at (compute_total_priority states) i =
        omega_at (compute_total_priority states) j) ∧
    (component states i = [i] ∧ i ∉ succs_of states i →
      omega_at (compute_total_priority states) i = 0) ∧
    (¬ (component states i = [i] ∧ i ∉ succs_of states i) →
      omega_at (compute_total_priority states) i =
        list_max ((component states i).map (omegap_at states)) ∧
      omegap_at states i ≤ omega_at (compute_total_priority states) i) := by
  rw [omega_at_compute states i hi, omega_at_compute states j hj]
  refine ⟨?_, ?_, ?_⟩
  · intro hs
    by_cases htriv : component states i = [i] ∧ i ∉ succs_of states i
    · have hji : j ∈ component states i :=
        (mem_component states i j).mpr ⟨hj, hs⟩
      rw [htriv.1] at hji
      have : j = i := by simpa using hji
      subst this
      rfl
    · have hcomp : component states i = component states j :=
        component_congr states hb hi hj hs
      have htrivj : ¬ (component states j = [j] ∧ j ∉ succs_of states j) := by
        rintro ⟨h1, h2⟩
        have hii : i ∈ component states j := by
          rw [← hcomp]
          exact self_mem_component states hi
        rw [h1] at hii
        have : i = j := by simpa using hii
        subst this
        exact htriv ⟨h1, h2⟩
      unfold total_priority
      rw [if_neg htriv, if_neg htrivj, hcomp]
  · intro htriv
    unfold total_priority
    rw [if_pos htriv]
  · intro htriv
    unfold total_priority
    rw [if_neg htriv]
    refine ⟨rfl, ?_⟩
    apply le_list_max
    exact List.mem_map_of_mem (omegap_at states) (self_mem_component states hi)

/-- Decidable check that every transition target is a valid state index. -/
def succs_bounded (states : List AState) : Bool :=
  (List.range states.length).all
    (fun a => (succs_of states a).all (fun b => decide (b < states.length)))

theorem succs_of_out_of_range (states : List AState) (a : Nat)
    (ha : states.length ≤ a) : succs_of states a = [] := by
  unfold succs_of
  rw [List.get?_eq_none.mpr ha]

theorem succs_bounded_iff (states : List AState) :
    succs_bounded states = true ↔
      ∀ a b, b ∈ succs_of states a → b < states.length := by
  unfold succs_bounded
  rw [List.all_eq_true]
  constructor
  · intro h a b hab
    rcases Nat.lt_or_ge a states.length with ha | ha
    · have := h a (List.mem_range.mpr ha)
      rw [List.all_eq_true] at this
      exact of_decide_eq_true (this b hab)
    · rw [succs_of_out_of_range states a ha] at hab
      cases hab
  · intro h a _
    rw [List.all_eq_true]
    intro b hb
    exact decide_eq_true (h a b hb)

/-- A witness for the SCC specification, on the APTA of ν X.(X ∧ a). -/
theorem compute_total_priority_scc_spec_witness :
    ∃ states, apta_from_formula 8 (.nu "X" (.and (.var "X") (.prop "a"))) = some states ∧
      succs_bounded states = true ∧
      0 < states.length ∧
      same_scc states 0 0 ∧
      omega_at (compute_total_priority states) 0 =
        omega_at (compute_total_priority states) 0 := by
  refine ⟨(apta_from_formula 8 (.nu "X" (.and (.var "X") (.prop "a")))).getD [],
    by decide, by decide, by decide, by decide, ?_⟩
  exact (compute_total_priority_scc_spec _
    ((succs_bounded_iff _).mp (by decide)) 0 0 (by decide) (by decide)).1
    (by decide)

/-- C4 (counterexample): on μX.νY.Y the state for the μ-formula has Ω′ = 1 but
is a self-loop-free singleton SCC, so `compute_total_priority` assigns it
Ω = 0 < Ω′, refuting Ω(q) ≥ Ω′(q) for every state of an APTA built by
`from_formula`. -/
theorem compute_total_priority_claim_counterexample :
    (apta_from_formula 8 (.mu "X" (.nu "Y" (.var "Y")))).isSome = true ∧
    omegap_at ((apta_from_formula 8 (.mu "X" (.nu "Y" (.var "Y")))).getD []) 0 = 1 ∧
    omega_at (compute_total_priority
      ((apta_from_formula 8 (.mu "X" (.nu "Y" (.var "Y")))).getD [])) 0 = 0 ∧
    omega_at (compute_total_priority
      ((apta_from_formula 8 (.mu "X" (.nu "Y" (.var "Y")))).getD [])) 0 <
      omegap_at ((apta_from_formula 8 (.mu "X" (.nu "Y" (.var "Y")))).getD []) 0 := by
  decide

/-- Lower bound preserved by the Ω computation: when every state has
Ω′ ≥ −1, every total priority is ≥ −1. -/
theorem total_priority_ge (states : List AState)
    (i : Nat) (hi : i < states.length)
    (hp : ∀ q, q < states.length → -1 ≤ omegap_at states q) :
    -1 ≤ total_priority states i := by
  unfold total_priority
  split
  · omega
  · have h1 : omegap_at states i ≤
        list_max ((component states i).map (omegap_at states)) := by
      apply le_list_max
      exact List.mem_map_of_mem (omegap_at states) (self_mem_component states hi)
    have h2 := hp i hi
    omega

/-! ## Boolean label encoding for the determinizer (`BDDMapping`) -/

/-- Name of the auxiliary boolean variable `_u{k}`. -/
def u_name (k : Nat) : String := "_u" ++ toString k

/-- Python's `int.bit_length`, with structural fuel. -/
def bit_length_fuel : Nat → Nat → Nat
  | 0, _ => 0
  | fuel + 1, n => if n = 0 then 0 else bit_length_fuel fuel (n / 2) + 1

def bit_length (n : Nat) : Nat := bit_length_fuel n n

/-- The data `BDDMapping.__init__` derives from the APTA: local disjunctive
states with more than one successor, modal disjunctive states, and the
flattened children of each recorded local disjunctive state. -/
structure BDDMapping where
  local_ex_states : List Nat
  modal_ex_states : List Nat
  local_children : List (List Nat)
deriving DecidableEq, Repr

/-- `⌈log₂ |modal-existential-states|⌉` as the source computes it. -/
def BDDMapping.state_length (m : BDDMapping) : Nat :=
  bit_length m.modal_ex_states.length

/-- Position of `q` in an index list (the `local_ex_map` / `modal_ex_map`
inverse maps). -/
def find_index (l : List Nat) (q : Nat) : Option Nat :=
  find_idx (fun x => decide (x = q)) l

def num_succs (s : AState) : Nat :=
  (s.next.map (fun kv => kv.2.length)).sum

def state_children (s : AState) : List Nat :=
  (s.next.map (·.2)).flatten

/-- Build the `BDDMapping` data from the APTA states. -/
def mapping_from_apta (states : List AState) : BDDMapping :=
  let le := (List.range states.length).filter (fun i =>
    match states.get? i with
    | some s => s.localq && s.existential && decide (1 < num_succs s)
    | none => false)
  let me := (List.range states.length).filter (fun i =>
    match states.get? i with
    | some s => !s.localq && s.existential
    | none => false)
  { local_ex_states := le
    modal_ex_states := me
    local_children := le.map (fun i =>
      match states.get? i with
      | some s => state_children s
      | none => []) }

/-- Binary encoding of `num` over `_u{k}`, least significant bit first as the
source's loop produces it (`num % 2 != 0` then `num //= 2`). -/
def state_bits_aux (k len num : Nat) : List (String × Bool) :=
  match len with
  | 0 => []
  | len + 1 => (u_name k, decide (num % 2 ≠ 0)) :: state_bits_aux (k + 1) len (num / 2)

def state_bits (len num : Nat) : List (String × Bool) :=
  state_bits_aux 0 len num

/-- The `_u` literals of a CHOICE label: for each recorded pair (p, q), the
source's `if p_index := self.local_ex_map.get(p):` skips the literal both when
p is unrecorded and when its index is 0 (a falsy value); otherwise the literal
says whether q is not the first enumerated child of p. -/
def choice_bits (m : BDDMapping) : List (Nat × Nat) → Option (List (String × Bool))
  | [] => some []
  | (p, q) :: rest =>
      match find_index m.local_ex_states p with
      | some 0 => choice_bits m rest
      | some (pIdx + 1) =>
          match (m.local_children.get? (pIdx + 1)).bind (fun ch => ch.head?) with
          | some firstChild =>
              (choice_bits m rest).map
                (fun r => (u_name (pIdx + 1), decide (q ≠ firstChild)) :: r)
          | Option.none => none
      | Option.none => choice_bits m rest

/-- `BDDMapping.translate_label`: the conjunction of literals (in emission
order) that encodes a label; `none` models the runtime errors of the source
(a STATE extra outside `modal_ex_map`, or missing children data). -/
def translate_label (m : BDDMapping) (l : Label) : Option (List (String × Bool)) :=
  match l.type with
  | .any => some l.aprops
  | .state =>
      match l.extra with
      | .idx q =>
          match find_index m.modal_ex_states q with
          | some num =>
              some (l.aprops ++ [("_is_choice", false)] ++ state_bits m.state_length num)
          | Option.none => none
      | .none => some (l.aprops ++ [("_is_choice", false)])
      | .pairs _ => none
  | .choice =>
      match l.extra with
      | .pairs ps =>
          (choice_bits m ps).map (fun bits => l.aprops ++ [("_is_choice", true)] ++ bits)
      | .none => some (l.aprops ++ [("_is_choice", true)])
      | .idx 0 => some (l.aprops ++ [("_is_choice", true)])
      | .idx _ => none

/-- Insert into the `values` dictionary: overwriting keeps the original
position, appending goes to the end, as in a Python dict. -/
def dict_insert (d : List (String × Bool)) (k : String) (v : Bool) :
    List (String × Bool) :=
  if (d.lookup k).isSome then d.map (fun kv => if kv.1 = k then (k, v) else kv)
  else d ++ [(k, v)]

def dict_of (lits : List (String × Bool)) : List (String × Bool) :=
  lits.foldl (fun d kv => dict_insert d kv.1 kv.2) []

/-- Label decoded from a CNF clause by `translate_back_label`.  In the CHOICE
branch the source appends `self.local_children[1 if value else 0]` — a whole
list of children, not a state index — so the decoded pairs carry lists. -/
inductive DLabel where
  | dany (aprops : List (String × Bool))
  | dchoice (extra : List (Nat × List Nat)) (aprops : List (String × Bool))
  | dstate (extra : Option Nat) (aprops : List (String × Bool))
deriving DecidableEq, Repr

/-- The CHOICE reconstruction loop `for k, state_nr in enumerate(self.local_ex_states)`. -/
def choice_decode_aux (m : BDDMapping) (values : List (String × Bool)) :
    Nat → List Nat → Option (List (Nat × List Nat))
  | _, [] => some []
  | k, state_nr :: rest =>
      match values.lookup (u_name k) with
      | Option.none => choice_decode_aux m values (k + 1) rest
      | some v =>
          match m.local_children.get? (if v then 1 else 0) with
          | some children =>
              (choice_decode_aux m values (k + 1) rest).map
                (fun r => (state_nr, children) :: r)
          | Option.none => none

/-- The STATE reconstruction loop `for k in reversed(range(self.state_length))`
with `factor` doubling, i.e. most significant bit on `_u{state_length-1}`…
read back most significant first; `none` models the KeyError on a missing bit. -/
def decode_bits (values : List (String × Bool)) : List Nat → Nat → Option Nat
  | [], _ => some 0
  | k :: rest, factor =>
      match values.lookup (u_name k) with
      | some v =>
          (decode_bits values rest (factor * 2)).map
            (fun acc => acc + if v then factor else 0)
      | Option.none => none

/-- `BDDMapping.translate_back_label` on a single CNF clause.

Modelled from the spec: the BDD package and the CNF conversion (`buddy` and
`spot`, externals the spec treats abstractly) carry a consistent conjunction
of literals to an equal set of literals, so the decoder's `values` dictionary
is exactly the dictionary of the encoder's literal list. -/
def starts_with_underscore (s : String) : Bool :=
  match s.data with
  | [] => false
  | c :: _ => c = '_'

def translate_back_clause (m : BDDMapping) (values : List (String × Bool)) :
    Option DLabel :=
  let aprops := values.filter (fun kv => !(starts_with_underscore kv.1))
  match values.lookup "_is_choice" with
  | Option.none => some (.dany aprops)
  | some true =>
      (choice_decode_aux m values 0 m.local_ex_states).map
        (fun choice => .dchoice choice aprops)
  | some false =>
      match values.lookup (u_name 0) with
      | Option.none => some (.dstate Option.none aprops)
      | some _ =>
          (decode_bits values (List.range m.state_length).reverse 1).map
            (fun nr => .dstate (some nr) aprops)

/-- Encode a label and decode it back through the `values` dictionary. -/
def round_trip (m : BDDMapping) (l : Label) : Option DLabel :=
  (translate_label m l).bind (fun lits => translate_back_clause m (dict_of lits))

/-- C6 (code evaluated at the failing input): on the APTA of p ∨ q the OR
state is recorded as local-existential state of index 0 with children [1, 2];
translating CHOICE(extra = ((0, 2),)) yields only the `_is_choice` literal and
drops the claimed `_u0 = true` literal, so the encodings of the choice of the
first child and of the second child coincide. -/
theorem translate_choice_skips_index_zero :
    (apta_from_formula 8 (.or (.prop "p") (.prop "q"))).isSome = true ∧
    (mapping_from_apta
      ((apta_from_formula 8 (.or (.prop "p") (.prop "q"))).getD [])).local_ex_states = [0] ∧
    (mapping_from_apta
      ((apta_from_formula 8 (.or (.prop "p") (.prop "q"))).getD [])).local_children = [[1, 2]] ∧
    translate_label
      (mapping_from_apta ((apta_from_formula 8 (.or (.prop "p") (.prop "q"))).getD []))
      ⟨.choice, .pairs [(0, 2)], []⟩ = some [("_is_choice", true)] ∧
    translate_label
      (mapping_from_apta ((apta_from_formula 8 (.or (.prop "p") (.prop "q"))).getD []))
      ⟨.choice, .pairs [(0, 2)], []⟩ =
    translate_label
      (mapping_from_apta ((apta_from_formula 8 (.or (.prop "p") (.prop "q"))).getD []))
      ⟨.choice, .pairs [(0, 1)], []⟩ := by
  decide

/-- C2 (code evaluated at the failing input): on the APTA of p ∨ ◇p the only
modal-existential state is 2; translating STATE(extra = 2) and decoding it
back yields STATE with extra 0 — the decoder never maps the bit pattern back
through `modal_ex_states`, and reads the bits in the opposite order from the
encoder — so the constrained extra is not preserved. -/
theorem round_trip_state_extra_not_preserved :
    (apta_from_formula 12 (.or (.prop "p") (.dia (.prop "p")))).isSome = true ∧
    (mapping_from_apta
      ((apta_from_formula 12 (.or (.prop "p") (.dia (.prop "p")))).getD [])).modal_ex_states
      = [2] ∧
    round_trip
      (mapping_from_apta ((apta_from_formula 12 (.or (.prop "p") (.dia (.prop "p")))).getD []))
      ⟨.state, .idx 2, []⟩ = some (.dstate (some 0) []) ∧
    (0 : Nat) ≠ 2 := by
  decide

/-! ## Game arena -/

/-- `get_propositions`: atomic propositions syntactically occurring in a
formula (as a set; we return the discovery-ordered list, deduplicated and
sorted by the caller as in the source's `sorted(labels)`). -/
def get_propositions : Formula → List String
  | .prop p => [p]
  | .dia f => get_propositions f
  | .box f => get_propositions f
  | .lit _ => []
  | .neg f => get_propositions f
  | .and f g => get_propositions f ++ get_propositions g
  | .or f g => get_propositions f ++ get_propositions g
  | .mu _ b => get_propositions b
  | .nu _ b => get_propositions b
  | .var _ => []

def dedup_str (l : List String) : List String :=
  l.foldl (fun acc x => if x ∈ acc then acc else acc ++ [x]) []

def chars_le : List Char → List Char → Bool
  | [], _ => true
  | _ :: _, [] => false
  | a :: as, b :: bs =>
      if a.toNat < b.toNat then true
      else if b.toNat < a.toNat then false
      else chars_le as bs

def str_le (a b : String) : Bool := chars_le a.data b.data

def insert_sorted (x : String) : List String → List String
  | [] => [x]
  | y :: ys => if str_le x y then x :: y :: ys else y :: insert_sorted x ys

/-- Python's `sorted` on proposition names (ascending lexicographic). -/
def sort_strings (l : List String) : List String := l.foldr insert_sorted []

def insert_nat (x : Nat) : List Nat → List Nat
  | [] => [x]
  | y :: ys => if x ≤ y then x :: y :: ys else y :: insert_nat x ys

def sort_nats (l : List Nat) : List Nat := l.foldr insert_nat []

/-- Canonical representation of a `frozenset` of state indices: ascending,
duplicate-free. -/
def canon_set (l : List Nat) : List Nat := sort_nats (l.foldl add_to_set [])

/-- `itertools.product([False, True], repeat=n)`: the first coordinate varies
slowest, `False` before `True`. -/
def bool_combos : Nat → List (List Bool)
  | 0 => [[]]
  | n + 1 =>
      (bool_combos n).map (fun c => false :: c) ++
        (bool_combos n).map (fun c => true :: c)

/-- `GameArena.extract_alphabet`: one letter per assignment of the sorted
atomic propositions of the states in `s`. -/
def extract_alphabet (aut : List AState) (s : List Nat) :
    List (List (String × Bool)) :=
  let props := sort_strings (dedup_str
    ((s.map (fun q => match aut.get? q with
      | some st => get_propositions st.value
      | none => [])).flatten))
  (bool_combos props.length).map (fun combo => props.zip combo)

/-- Arena edge labels: a letter σ, a local-choice dictionary d, a modal state
index, or `None` for the universal representative move. -/
inductive EdgeLabel where
  | sigma (s : List (String × Bool))
  | dmap (d : List (Nat × Nat))
  | stateq (q : Nat)
  | nolab
deriving DecidableEq, Repr

/-- `GameArena.Position`: a macro-state (set of APTA states), an optional
letter, the ◇/☐ classification and the labelled out-edges. -/
structure Position where
  states : List Nat
  symbol : Option (List (String × Bool))
  is_diamond : Bool
  next : List (EdgeLabel × Nat)
deriving DecidableEq, Repr

structure Arena where
  positions : List Position
  d_choices : List (List (Nat × Nat))
deriving DecidableEq, Repr

/-- `GameArena.get_position`: interned positions; a fresh position is ◇ iff
its symbol is `None` or some member state is local. -/
def get_position (aut : List AState) (arena : Arena) (states : List Nat)
    (symbol : Option (List (String × Bool))) : Nat × Arena :=
  match find_idx (fun p => decide (p.states = states ∧ p.symbol = symbol)) arena.positions with
  | some i => (i, arena)
  | none =>
      let isd := symbol.isNone || states.any (fun q =>
        ((aut.get? q).map (·.localq)).getD false)
      (arena.positions.length,
        { arena with positions :=
            arena.positions ++ [⟨states, symbol, isd, []⟩] })

/-- `GameArena.add_transition`: intern the target position, append the edge,
and push the target on the worklist unless already visited. -/
def arena_add_transition (aut : List AState) (arena : Arena) (fromIdx : Nat)
    (label : EdgeLabel) (to_states : List Nat)
    (symbol : Option (List (String × Bool))) (pending : List Nat)
    (visited : List Nat) : Arena × List Nat :=
  let (tidx, arena1) := get_position aut arena to_states symbol
  let newpos := modify_at arena1.positions fromIdx
    (fun p => { p with next := p.next ++ [(label, tidx)] })
  let arena2 := { arena1 with positions := newpos }
  if tidx ∈ visited then (arena2, pending) else (arena2, tidx :: pending)

/-- `GameArena.updatel`. -/
def updatel (aut : List AState) (s : List Nat) (sigma : List (String × Bool))
    (d : List (Nat × Nat)) : List Nat :=
  (s.map (fun q =>
    match aut.get? q with
    | none => []
    | some st =>
        if st.localq then
          if st.existential then
            match d.lookup q with
            | some t => [t]
            | none => []
          else
            (st.next.map (fun kv =>
              match kv.1 with
              | none => kv.2
              | some (v, val) =>
                  if sigma.lookup v = some val then kv.2 else [])).flatten
        else [q])).flatten

/-- `GameArena.updatem`. -/
def updatem (aut : List AState) (s : List Nat) (q : Nat) : List Nat :=
  (match aut.get? q with
   | some st => (st.next.map (·.2)).flatten
   | none => []) ++
  (s.map (fun q2 =>
    if q2 ≠ q then
      match aut.get? q2 with
      | some st2 => if !st2.existential then (st2.next.map (·.2)).flatten else []
      | none => []
    else [])).flatten

/-- `itertools.product(*lists)`: first list varies slowest. -/
def list_product {α : Type} : List (List α) → List (List α)
  | [] => [[]]
  | l :: ls => (l.map (fun x => (list_product ls).map (fun c => x :: c))).flatten

/-- Expansion of one arena position, by the three rules of
`GameArena.emptyness_arena` (letter emission, local step, modal step). -/
def arena_expand (aut : List AState) (arena : Arena) (node_idx : Nat)
    (pending : List Nat) (visited : List Nat) : Arena × List Nat :=
  match arena.positions.get? node_idx with
  | none => (arena, pending)
  | some node =>
    match node.symbol with
    | none =>
        (extract_alphabet aut node.states).foldl
          (fun (acc : Arena × List Nat) sigma =>
            arena_add_transition aut acc.1 node_idx (.sigma sigma) node.states
              (some sigma) acc.2 visited)
          (arena, pending)
    | some p =>
        if node.states.any (fun q => ((aut.get? q).map (·.localq)).getD false) then
          let existentials := node.states.filter (fun q =>
            match aut.get? q with
            | some st => st.localq && st.existential
            | none => false)
          let choices := existentials.map (fun q =>
            match aut.get? q with
            | some st => st.next.map (·.2)
            | none => [])
          (list_product choices).foldl
            (fun acc1 successors =>
              (list_product successors).foldl
                (fun (acc : Arena × List Nat) combo =>
                  let d := existentials.zip combo
                  let arena1 :=
                    if d ≠ [] ∧ d ∉ acc.1.d_choices then
                      { acc.1 with d_choices := acc.1.d_choices ++ [d] }
                    else acc.1
                  let s2 := canon_set (updatel aut node.states p d)
                  arena_add_transition aut arena1 node_idx (.dmap d) s2 (some p)
                    acc.2 visited)
                acc1)
            (arena, pending)
        else
          let existentials := node.states.filter (fun q =>
            match aut.get? q with
            | some st => st.existential
            | none => false)
          if existentials ≠ [] then
            existentials.foldl
              (fun (acc : Arena × List Nat) q =>
                arena_add_transition aut acc.1 node_idx (.stateq q)
                  (canon_set (updatem aut node.states q)) none acc.2 visited)
              (arena, pending)
          else
            let universals := node.states.filter (fun q =>
              match aut.get? q with
              | some st => !st.existential
              | none => false)
            match universals with
            | [] => (arena, pending)
            | u :: us =>
                let qrep := us.foldl Nat.min u
                arena_add_transition aut arena node_idx .nolab
                  (canon_set (updatem aut node.states qrep)) none pending visited

/-- Worklist loop of `GameArena.emptyness_arena` (LIFO, explicit fuel). -/
def arena_loop (aut : List AState) : Nat → Arena → List Nat → List Nat →
    Option Arena
  | 0, arena, pending, _ => if pending = [] then some arena else none
  | fuel + 1, arena, pending, visited =>
      match pending with
      | [] => some arena
      | i :: rest =>
          if i ∈ visited then arena_loop aut fuel arena rest visited
          else
            let (arena2, pending2) := arena_expand aut arena i rest (i :: visited)
            arena_loop aut fuel arena2 pending2 (i :: visited)

/-- `GameArena.emptyness_arena`: interns the initial macro-state ({q₀}, None)
and saturates; also returns the (possibly extended) automaton since the
source's `get_state` can intern the root formula. -/
def emptyness_arena (fuel : Nat) (aut : List AState) (f : Formula) :
    Option (Arena × List AState) :=
  let r := get_state aut f
  let p := get_position r.2 ⟨[], []⟩ [r.1] none
  (arena_loop r.2 fuel p.2 [p.1] []).map (fun a => (a, r.2))

/-! ## Tracking NPA -/

/-- NPA state: index, priority Ω + 1, and transitions keyed by `Label`. -/
structure NState where
  idx : Nat
  priority : Int
  next : List (Label × List Nat)
deriving DecidableEq, Repr

structure NPA where
  states : List NState
deriving DecidableEq, Repr

/-- `npa_state.next[lbl] = targets` (dict assignment). -/
def lnext_assign (next : List (Label × List Nat)) (key : Label) (val : List Nat) :
    List (Label × List Nat) :=
  match next with
  | [] => [(key, val)]
  | (k, v) :: rest =>
      if k = key then (key, val) :: rest else (k, v) :: lnext_assign rest key val

/-- `npa_state.next.setdefault(lbl, set()).update(targets)`. -/
def lnext_update (next : List (Label × List Nat)) (key : Label) (vals : List Nat) :
    List (Label × List Nat) :=
  match next with
  | [] => [(key, vals.foldl add_to_set [])]
  | (k, v) :: rest =>
      if k = key then (k, vals.foldl add_to_set v) :: rest
      else (k, v) :: lnext_update rest key vals

/-- `NPA._expand_state`: transitions of NPA state `i` by the category of the
underlying APTA state (local/modal × existential/universal). -/
def npa_state_next (aut : List AState) (i : Nat) : List (Label × List Nat) :=
  match aut.get? i with
  | none => []
  | some s =>
    if s.localq && s.existential then
      s.next.foldl (fun acc kv =>
        kv.2.foldl (fun acc2 t =>
          lnext_assign acc2 ⟨.choice, .pairs [(i, t)], []⟩ [t]) acc) []
    else if s.localq then
      s.next.foldl (fun acc kv =>
        lnext_update acc
          (match kv.1 with
           | some pv => ⟨.any, .none, [pv]⟩
           | none => ⟨.any, .none, []⟩) kv.2) []
    else if !s.existential then
      lnext_assign
        (s.next.foldl (fun acc kv => lnext_update acc ⟨.state, .none, []⟩ kv.2) [])
        ⟨.choice, .none, []⟩ [i]
    else
      lnext_assign
        (s.next.foldl (fun acc kv => lnext_update acc ⟨.state, .idx i, []⟩ kv.2) [])
        ⟨.choice, .none, []⟩ [i]

/-- `NPA.from_apta`: one NPA state per APTA state, with priority Ω(q) + 1. -/
def npa_from_apta (aut : List AState) : NPA :=
  { states := (List.range aut.length).map (fun i =>
      ⟨i, omega_at aut i + 1, npa_state_next aut i⟩) }

/-! ## Parity game -/

/-- Node symbol: `None`, a carried arena edge label (rule A stores the raw
letter), or a pair (σ, d) built by rule B. -/
inductive GSym where
  | nosym
  | sig (l : EdgeLabel)
  | pair (s : List (String × Bool)) (d : EdgeLabel)
deriving DecidableEq, Repr

structure GNode where
  idx : Nat
  arena_position : Nat
  tracking_state : Nat
  symbol : GSym
  player : Bool
  priority : Int
  successors : List Nat
deriving DecidableEq, Repr

structure Game where
  arena : Arena
  tracking_aut : NPA
  nodes : List GNode
deriving DecidableEq, Repr

/-- `ParityGame.get_node`: interned nodes; the owner is the arena position's
player for symbol `None` and ☐ otherwise; the stored priority is the tracking
state's priority plus one (`ParityGameNode.__init__`). -/
def get_node (g : Game) (a t : Nat) (s : GSym) : Nat × Game :=
  match find_idx (fun nd =>
      decide (nd.arena_position = a ∧ nd.tracking_state = t ∧ nd.symbol = s)) g.nodes with
  | some i => (i, g)
  | none =>
      let player := match s with
        | .nosym => ((g.arena.positions.get? a).map (·.is_diamond)).getD false
        | _ => false
      let priority := (((g.tracking_aut.states.get? t).map (·.priority)).getD 0) + 1
      (g.nodes.length,
        { g with nodes := g.nodes ++ [⟨g.nodes.length, a, t, s, player, priority, []⟩] })

/-- Does `σ` admit the literal constraints of `label.aprops`
(`p not in sigma_dict or sigma_dict[p] == val`)? -/
def aprops_ok (aprops : List (String × Bool)) (sigma : List (String × Bool)) : Bool :=
  aprops.all (fun pv =>
    match sigma.lookup pv.1 with
    | none => true
    | some b => b = pv.2)

/-- Rule C compatibility test of `ParityGame.expand_state`: CHOICE needs a
set-valued d and pairwise agreement with a non-`None` extra; ANY always
matches; STATE needs both d and extra to be integers and equal; finally the
aprops constraints are checked against σ. -/
def is_compatible (label : Label) (d : EdgeLabel) (sigma : List (String × Bool)) :
    Bool :=
  let base :=
    match label.type with
    | .choice =>
        match d with
        | .dmap dm =>
            (match label.extra with
             | .none => true
             | .pairs ps => ps.all (fun pq => dm.lookup pq.1 = some pq.2)
             | .idx _ => false)
        | .sigma _ =>
            (match label.extra with
             | .none => true
             | .pairs ps => ps.all (fun _ => false)
             | .idx _ => false)
        | _ => false
    | .any => true
    | .state =>
        match d, label.extra with
        | .stateq q, .idx e => q = e
        | _, _ => false
  base && aprops_ok label.aprops sigma

/-- Interning fold over the successor keys of one node. -/
def get_nodes_fold : Game → List Nat → List (Nat × Nat × GSym) → Game × List Nat
  | g, succs, [] => (g, succs)
  | g, succs, (a, t, s) :: rest =>
      let (j, g2) := get_node g a t s
      get_nodes_fold g2 (add_to_set succs j) rest

/-- The successor keys rules A, B, C and D of `ParityGame.expand_state`
produce for a node: A emits each letter, B carries each local/modal move,
C advances the tracking automaton along compatible transitions, D consumes a
bare letter. -/
def node_specs (g : Game) (nd : GNode) : List (Nat × Nat × GSym) :=
  match nd.symbol with
  | .nosym =>
      match g.arena.positions.get? nd.arena_position with
      | none => []
      | some pos =>
        match pos.symbol with
        | none =>
            pos.next.map (fun e => (e.2, nd.tracking_state, GSym.sig e.1))
        | some p =>
            pos.next.map (fun e => (e.2, nd.tracking_state, GSym.pair p e.1))
  | .pair s d =>
      let tnext := ((g.tracking_aut.states.get? nd.tracking_state).map (·.next)).getD []
      (tnext.map (fun lt =>
        if is_compatible lt.1 d s then
          lt.2.map (fun t2 => (nd.arena_position, t2, GSym.nosym))
        else [])).flatten
  | .sig _ => [(nd.arena_position, nd.tracking_state, GSym.nosym)]

/-- `ParityGame.expand_state`: interns the successors of node `i` and stores
their (deduplicated) index set on the node. -/
def expand_node (g : Game) (i : Nat) : Game :=
  match g.nodes.get? i with
  | none => g
  | some nd =>
    let r := get_nodes_fold g [] (node_specs g nd)
    { r.1 with nodes :=
        modify_at r.1.nodes i (fun nd2 => { nd2 with successors := r.2 }) }

/-- Worklist loop of `ParityGame.build` (LIFO on node indices, keyed by the
interning key, explicit fuel). -/
def build_loop : Nat → Game → List Nat → List (Nat × Nat × GSym) → Option Game
  | 0, g, pending, _ => if pending = [] then some g else none
  | fuel + 1, g, pending, visited =>
      match pending with
      | [] => some g
      | i :: rest =>
          match g.nodes.get? i with
          | none => build_loop fuel g rest visited
          | some nd =>
              let key := (nd.arena_position, nd.tracking_state, nd.symbol)
              if key ∈ visited then build_loop fuel g rest visited
              else
                let g2 := expand_node g i
                let succs := ((g2.nodes.get? i).map (·.successors)).getD []
                build_loop fuel g2 (succs.reverse ++ rest) (key :: visited)

/-- `ParityGame.build`: start from (arena position 0, tracking state 0,
symbol `None`) and saturate. -/
def build_game (fuel : Nat) (arena : Arena) (npa : NPA) : Option Game :=
  let g0 : Game := ⟨arena, npa, []⟩
  let t0 := (((npa.states.get? 0).map (·.idx)).getD 0)
  let (i0, g1) := get_node g0 0 t0 GSym.nosym
  build_loop fuel g1 [i0] []

/-- `ParityGame.from_formula`: APTA, total priorities, arena, tracking NPA,
game.  The source also computes `dnpa = determinize(npa)` here but never uses
it: the game is constructed from the raw `npa`. -/
def parity_game_from_formula (fuel : Nat) (f : Formula) : Option Game :=
  (apta_from_formula fuel f).bind (fun states0 =>
    let states1 := compute_total_priority states0
    (emptyness_arena fuel states1 f).bind (fun ar =>
      let npa := npa_from_apta ar.2
      build_game fuel ar.1 npa))

/-! ## PGSolver emission -/

structure PGLine where
  idx : Nat
  priority : Int
  player : Nat
  succs : List Nat
deriving DecidableEq, Repr

/-- The per-node records of `ParityGame._to_pgsolver_format`: player bit 0
for ◇ and 1 for ☐; a node without successors becomes a self-loop whose
priority is `1 - player`. -/
def pg_lines (g : Game) : List PGLine :=
  g.nodes.map (fun nd =>
    let pl : Nat := if nd.player then 0 else 1
    if nd.successors = [] then ⟨nd.idx, 1 - (pl : Int), pl, [nd.idx]⟩
    else ⟨nd.idx, nd.priority, pl, nd.successors⟩)

def render_line (x : PGLine) : String :=
  toString x.idx ++ " " ++ toString x.priority ++ " " ++ toString x.player ++ " " ++
    String.intercalate "," (x.succs.map toString) ++ ";\n"

/-- `ParityGame._to_pgsolver_format`: the header plus one line per node. -/
def to_pgsolver_format (g : Game) : String :=
  "parity " ++ toString g.nodes.length ++ ";\n" ++
    String.join ((pg_lines g).map render_line)

/-- C5 (counterexample): a STATE transition with empty extra does not match a
node whose d is the integer 0, although its aprops constraints hold — the
claim predicts a match for every integer d when extra is empty. -/
theorem is_compatible_state_claim_counterexample :
    is_compatible ⟨.state, .none, []⟩ (.stateq 0) [] = false ∧
    aprops_ok (⟨.state, .none, []⟩ : Label).aprops [] = true := by
  decide

/-- C5 (amended): in rule C a STATE-labelled transition is compatible exactly
when d is an integer, `label.extra` is an integer equal to it, and the aprops
admit σ; a STATE label with empty extra never matches. -/
theorem is_compatible_state_spec (label : Label) (d : EdgeLabel)
    (sigma : List (String × Bool)) (h : label.type = .state) :
    is_compatible label d sigma = true ↔
      (∃ q, d = .stateq q ∧ label.extra = .idx q) ∧
        aprops_ok label.aprops sigma = true := by
  unfold is_compatible
  rw [h]
  cases d <;> cases hx : label.extra <;>
    simp [Bool.and_eq_true, hx] <;> tauto

/-- Witness for the amended rule-C STATE compatibility. -/
theorem is_compatible_state_spec_witness :
    is_compatible ⟨.state, .idx 1, []⟩ (.stateq 1) [] = true ↔
      (∃ q, EdgeLabel.stateq 1 = .stateq q ∧
        (⟨.state, .idx 1, []⟩ : Label).extra = .idx q) ∧
      aprops_ok (⟨.state, .idx 1, []⟩ : Label).aprops [] = true :=
  is_compatible_state_spec ⟨.state, .idx 1, []⟩ (.stateq 1) [] rfl

/-! ## Construction invariants -/

theorem get_modify_at {α : Type} :
    ∀ (l : List α) (i k : Nat) (g : α → α),
      (modify_at l i g).get? k =
        if k = i then (l.get? k).map g else l.get? k := by
  intro l
  induction l with
  | nil => intro i k g; simp [modify_at]
  | cons x xs ih =>
      intro i k g
      cases i with
      | zero =>
          cases k with
          | zero => simp [modify_at]
          | succ k => simp [modify_at]
      | succ i =>
          cases k with
          | zero => simp [modify_at]
          | succ k =>
              simp only [modify_at, List.get?_cons_succ, ih i k g]
              by_cases hk : k = i <;> simp [hk]

theorem length_modify_at {α : Type} :
    ∀ (l : List α) (i : Nat) (g : α → α), (modify_at l i g).length = l.length := by
  intro l
  induction l with
  | nil => intro i g; rfl
  | cons x xs ih =>
      intro i g
      cases i with
      | zero => simp [modify_at]
      | succ i => simp [modify_at, ih i g]

theorem mem_modify_at {α : Type} :
    ∀ (l : List α) (i : Nat) (g : α → α) (z : α),
      z ∈ modify_at l i g → z ∈ l ∨ ∃ y, y ∈ l ∧ z = g y := by
  intro l
  induction l with
  | nil => intro i g z hz; cases hz
  | cons x xs ih =>
      intro i g z hz
      cases i with
      | zero =>
          rcases List.mem_cons.mp hz with rfl | hz
          · exact Or.inr ⟨x, List.mem_cons_self x xs, rfl⟩
          · exact Or.inl (List.mem_cons_of_mem x hz)
      | succ i =>
          rcases List.mem_cons.mp hz with rfl | hz
          · exact Or.inl (List.mem_cons_self z xs)
          · rcases ih i g z hz with h | ⟨y, hy, hzy⟩
            · exact Or.inl (List.mem_cons_of_mem x h)
            · exact Or.inr ⟨y, List.mem_cons_of_mem x hy, hzy⟩

theorem find_idx_lt {α : Type} (p : α → Bool) :
    ∀ (l : List α) (i : Nat), find_idx p l = some i → i < l.length := by
  intro l
  induction l with
  | nil => intro i h; cases h
  | cons x xs ih =>
      intro i h
      simp only [find_idx] at h
      by_cases hp : p x
      · rw [if_pos hp] at h
        cases h
        have hlen : (x :: xs).length = xs.length + 1 := rfl
        omega
      · rw [if_neg hp] at h
        rcases hj : find_idx p xs with _ | j
        · rw [hj] at h; cases h
        · rw [hj] at h
          rcases h2 : i with _ | i2
          · rw [h2] at h; simp at h
          · have hji : j = i2 := by
              rw [h2] at h
              simpa using h
            subst hji
            have := ih j hj
            have hlen : (x :: xs).length = xs.length + 1 := rfl
            omega

/-- A fold whose every step extends the accumulator along a transitive
relation extends the accumulator. -/
theorem foldl_preserves {α β : Type} (R : α → α → Prop)
    (hrefl : ∀ a, R a a)
    (htrans : ∀ a b c, R a b → R b c → R a c)
    (step : α → β → α) (hstep : ∀ a b, R a (step a b)) :
    ∀ (l : List β) (a : α), R a (l.foldl step a) := by
  intro l
  induction l with
  | nil => intro a; exact hrefl a
  | cons b bs ih =>
      intro a
      rw [List.foldl_cons]
      exact htrans _ _ _ (hstep a b) (ih (step a b))

/-- Fields of a game node other than its successor set. -/
def gnode_frame (a b : GNode) : Prop :=
  b.idx = a.idx ∧ b.arena_position = a.arena_position ∧
  b.tracking_state = a.tracking_state ∧ b.symbol = a.symbol ∧
  b.player = a.player ∧ b.priority = a.priority

/-- The game-construction steps only append nodes and rewrite successor
sets: the arena, the tracking automaton and all other node fields persist. -/
def game_ext (g g2 : Game) : Prop :=
  g2.arena = g.arena ∧ g2.tracking_aut = g.tracking_aut ∧
  g.nodes.length ≤ g2.nodes.length ∧
  ∀ k nd, g.nodes.get? k = some nd →
    ∃ nd2, g2.nodes.get? k = some nd2 ∧ gnode_frame nd nd2

theorem gnode_frame_refl (a : GNode) : gnode_frame a a :=
  ⟨rfl, rfl, rfl, rfl, rfl, rfl⟩

theorem game_ext_refl (g : Game) : game_ext g g :=
  ⟨rfl, rfl, le_rfl, fun _ nd h => ⟨nd, h, gnode_frame_refl nd⟩⟩

theorem game_ext_trans {g1 g2 g3 : Game}
    (h1 : game_ext g1 g2) (h2 : game_ext g2 g3) : game_ext g1 g3 := by
  obtain ⟨a1, t1, l1, n1⟩ := h1
  obtain ⟨a2, t2, l2, n2⟩ := h2
  refine ⟨a2.trans a1, t2.trans t1, le_trans l1 l2, ?_⟩
  intro k nd h
  obtain ⟨ndb, hb, fb⟩ := n1 k nd h
  obtain ⟨ndc, hc, fc⟩ := n2 k ndb hb
  exact ⟨ndc, hc, fc.1.trans fb.1, fc.2.1.trans fb.2.1, fc.2.2.1.trans fb.2.2.1,
    fc.2.2.2.1.trans fb.2.2.2.1, fc.2.2.2.2.1.trans fb.2.2.2.2.1,
    fc.2.2.2.2.2.trans fb.2.2.2.2.2⟩

theorem get_node_ext (g : Game) (a t : Nat) (s : GSym) :
    game_ext g (get_node g a t s).2 ∧
      (get_node g a t s).1 < (get_node g a t s).2.nodes.length := by
  unfold get_node
  rcases hf : find_idx (fun nd =>
      decide (nd.arena_position = a ∧ nd.tracking_state = t ∧ nd.symbol = s)) g.nodes
    with _ | i
  · simp only [hf]
    refine ⟨⟨rfl, rfl, by simp, ?_⟩, by simp⟩
    intro k nd h
    refine ⟨nd, ?_, gnode_frame_refl nd⟩
    rw [List.get?_append]
    · exact h
    · exact (List.get?_eq_some.mp h).1
  · simp only [hf]
    exact ⟨game_ext_refl g, find_idx_lt _ g.nodes i hf⟩

theorem get_nodes_fold_ext :
    ∀ (specs : List (Nat × Nat × GSym)) (g : Game) (succs : List Nat),
      (∀ j, j ∈ succs → j < g.nodes.length) →
      game_ext g (get_nodes_fold g succs specs).1 ∧
        ∀ j, j ∈ (get_nodes_fold g succs specs).2 →
          j < (get_nodes_fold g succs specs).1.nodes.length := by
  intro specs
  induction specs with
  | nil => intro g succs hs; exact ⟨game_ext_refl g, hs⟩
  | cons x rest ih =>
      intro g succs hs
      obtain ⟨a, t, s⟩ := x
      simp only [get_nodes_fold]
      obtain ⟨hext, hlt⟩ := get_node_ext g a t s
      have hs2 : ∀ j, j ∈ add_to_set succs (get_node g a t s).1 →
          j < (get_node g a t s).2.nodes.length := by
        intro j hj
        rcases mem_add_to_set.mp hj with h | rfl
        · exact lt_of_lt_of_le (hs j h) hext.2.2.1
        · exact hlt
      obtain ⟨hext2, h2⟩ := ih (get_node g a t s).2 (add_to_set succs (get_node g a t s).1) hs2
      exact ⟨game_ext_trans hext hext2, h2⟩

theorem expand_node_ext (g : Game) (i : Nat) : game_ext g (expand_node g i) := by
  unfold expand_node
  rcases hg : g.nodes.get? i with _ | nd
  · exact game_ext_refl g
  · obtain ⟨hext, _⟩ := get_nodes_fold_ext _ g [] (by intro j hj; cases hj)
    refine game_ext_trans hext ?_
    refine ⟨rfl, rfl, by rw [length_modify_at], ?_⟩
    intro k nd2 h
    rw [get_modify_at]
    by_cases hk : k = i
    · subst hk
      rw [if_pos rfl, h]
      exact ⟨_, rfl, rfl, rfl, rfl, rfl, rfl, rfl⟩
    · rw [if_neg hk]
      exact ⟨nd2, h, gnode_frame_refl nd2⟩

theorem build_loop_ext :
    ∀ (fuel : Nat) (g : Game) (pending : List Nat)
      (visited : List (Nat × Nat × GSym)) (g2 : Game),
      build_loop fuel g pending visited = some g2 → game_ext g g2 := by
  intro fuel
  induction fuel with
  | zero =>
      intro g pending visited g2 h
      simp only [build_loop] at h
      split at h
      · cases h; exact game_ext_refl _
      · cases h
  | succ fuel ih =>
      intro g pending visited g2 h
      rcases pending with _ | ⟨i, rest⟩
      · simp only [build_loop] at h
        cases h
        exact game_ext_refl _
      · simp only [build_loop] at h
        rcases hg : g.nodes.get? i with _ | nd
        · simp only [hg] at h
          exact ih g rest visited g2 h
        · simp only [hg] at h
          split at h
          · exact ih g rest visited g2 h
          · exact game_ext_trans (expand_node_ext g i) (ih _ _ _ g2 h)

theorem build_game_ext (fuel : Nat) (arena : Arena) (npa : NPA) (g : Game)
    (h : build_game fuel arena npa = some g) :
    g.arena = arena ∧ g.tracking_aut = npa := by
  unfold build_game at h
  dsimp only at h
  rcases hgn : get_node ⟨arena, npa, []⟩ 0
      ((((npa.states.get? 0).map (·.idx)).getD 0)) GSym.nosym with ⟨i0, g1⟩
  simp only [hgn] at h
  have hext1 := (get_node_ext ⟨arena, npa, []⟩ 0
    ((((npa.states.get? 0).map (·.idx)).getD 0)) GSym.nosym).1
  rw [hgn] at hext1
  have hext2 := build_loop_ext fuel g1 [i0] [] g h
  exact ⟨hext2.1.trans hext1.1, hext2.2.1.trans hext1.2.1⟩

/-- C1 (code evaluated): `ParityGame.from_formula` hands the raw tracking NPA
to the parity game — the game's tracking component (hence its node priorities)
comes from `NPA.from_apta`, not from the determinized automaton, whose value
(`dnpa = determinize(npa)`) is never used. -/
theorem from_formula_uses_raw_npa (fuel : Nat) (f : Formula) (g : Game)
    (h : parity_game_from_formula fuel f = some g) :
    ∃ states0 ar,
      apta_from_formula fuel f = some states0 ∧
      emptyness_arena fuel (compute_total_priority states0) f = some ar ∧
      g.tracking_aut = npa_from_apta ar.2 ∧ g.arena = ar.1 := by
  unfold parity_game_from_formula at h
  rcases ha : apta_from_formula fuel f with _ | states0
  · rw [ha] at h; cases h
  · rw [ha] at h
    dsimp only [Option.bind] at h
    rcases he : emptyness_arena fuel (compute_total_priority states0) f with _ | ar
    · rw [he] at h; cases h
    · rw [he] at h
      dsimp only [Option.bind] at h
      obtain ⟨harena, htrack⟩ := build_game_ext fuel ar.1 (npa_from_apta ar.2) g h
      exact ⟨states0, ar, rfl, he, htrack, harena⟩

/-- Witness for the raw-NPA data flow, at the formula ⊤. -/
theorem from_formula_uses_raw_npa_witness :
    ∃ states0 ar,
      apta_from_formula 64 (.lit true) = some states0 ∧
      emptyness_arena 64 (compute_total_priority states0) (.lit true) = some ar ∧
      ((parity_game_from_formula 64 (.lit true)).getD ⟨⟨[], []⟩, ⟨[]⟩, []⟩).tracking_aut =
        npa_from_apta ar.2 ∧
      ((parity_game_from_formula 64 (.lit true)).getD ⟨⟨[], []⟩, ⟨[]⟩, []⟩).arena = ar.1 :=
  from_formula_uses_raw_npa 64 (.lit true) _ (by decide)

/-! ## Well-formedness of built games -/

/-- Per-node well-formedness: stored index equals position, non-negative
stored priority, successors inside the node table. -/
def game_wf (g : Game) : Prop :=
  ∀ k nd, g.nodes.get? k = some nd → nd.idx = k ∧ 0 ≤ nd.priority ∧
    ∀ s, s ∈ nd.successors → s < g.nodes.length

def track_nonneg (npa : NPA) : Prop :=
  ∀ st, st ∈ npa.states → 0 ≤ st.priority

theorem get_node_wf (g : Game) (a t : Nat) (s : GSym)
    (htr : track_nonneg g.tracking_aut) (hwf : game_wf g) :
    game_wf (get_node g a t s).2 := by
  unfold get_node
  rcases hf : find_idx (fun nd =>
      decide (nd.arena_position = a ∧ nd.tracking_state = t ∧ nd.symbol = s)) g.nodes
    with _ | i
  · simp only [hf]
    intro k nd h
    by_cases hk : k < g.nodes.length
    · rw [List.get?_append hk] at h
      obtain ⟨h1, h2, h3⟩ := hwf k nd h
      refine ⟨h1, h2, fun s2 hs2 => lt_of_lt_of_le (h3 s2 hs2) ?_⟩
      simp
    · have hk2 : k = g.nodes.length := by
        have hlt := (List.get?_eq_some.mp h).1
        rw [List.length_append] at hlt
        simp at hlt
        omega
      subst hk2
      rw [List.get?_concat_length] at h
      cases h
      refine ⟨rfl, ?_, ?_⟩
      · rcases ht : g.tracking_aut.states.get? t with _ | st
        · simp [ht]
        · have hp := htr st (List.get?_mem ht)
          simp [ht]
          omega
      · intro s2 hs2
        cases hs2
  · simp only [hf]
    exact hwf

theorem get_nodes_fold_wf :
    ∀ (specs : List (Nat × Nat × GSym)) (g : Game) (succs : List Nat),
      track_nonneg g.tracking_aut → game_wf g →
      game_wf (get_nodes_fold g succs specs).1 := by
  intro specs
  induction specs with
  | nil => intro g succs _ hwf; exact hwf
  | cons x rest ih =>
      intro g succs htr hwf
      obtain ⟨a, t, s⟩ := x
      simp only [get_nodes_fold]
      have htr2 : track_nonneg (get_node g a t s).2.tracking_aut := by
        rw [(get_node_ext g a t s).1.2.1]
        exact htr
      exact ih _ _ htr2 (get_node_wf g a t s htr hwf)

/-- Rewriting one node's successor set to indices below the table size
preserves well-formedness. -/
theorem set_successors_wf (g : Game) (i : Nat) (succs : List Nat)
    (hwf : game_wf g) (hs : ∀ j, j ∈ succs → j < g.nodes.length) :
    game_wf { g with nodes := modify_at g.nodes i (fun nd => { nd with successors := succs }) } := by
  intro k nd2 h
  dsimp only at h
  rw [get_modify_at] at h
  have hlen : (modify_at g.nodes i
      (fun nd => { nd with successors := succs })).length = g.nodes.length :=
    length_modify_at _ _ _
  by_cases hk : k = i
  · subst hk
    rw [if_pos rfl] at h
    rcases hg : g.nodes.get? k with _ | nd0
    · rw [hg] at h; cases h
    · rw [hg] at h
      obtain ⟨h1, h2, _⟩ := hwf k nd0 hg
      dsimp only [Option.map] at h
      cases h
      refine ⟨h1, h2, ?_⟩
      intro s2 hs2
      dsimp only
      rw [hlen]
      exact hs s2 hs2
  · rw [if_neg hk] at h
    obtain ⟨h1, h2, h3⟩ := hwf k nd2 h
    refine ⟨h1, h2, ?_⟩
    intro s2 hs2
    dsimp only
    rw [hlen]
    exact h3 s2 hs2

theorem expand_node_wf (g : Game) (i : Nat)
    (htr : track_nonneg g.tracking_aut) (hwf : game_wf g) :
    game_wf (expand_node g i) := by
  unfold expand_node
  rcases hg : g.nodes.get? i with _ | nd
  · exact hwf
  · dsimp only
    have hwf2 := get_nodes_fold_wf (node_specs g nd) g [] htr hwf
    have hbound := (get_nodes_fold_ext (node_specs g nd) g []
      (by intro j hj; cases hj)).2
    exact set_successors_wf _ i _ hwf2 hbound

theorem build_loop_wf :
    ∀ (fuel : Nat) (g : Game) (pending : List Nat)
      (visited : List (Nat × Nat × GSym)) (g2 : Game),
      build_loop fuel g pending visited = some g2 →
      track_nonneg g.tracking_aut → game_wf g → game_wf g2 := by
  intro fuel
  induction fuel with
  | zero =>
      intro g pending visited g2 h htr hwf
      simp only [build_loop] at h
      split at h
      · cases h; exact hwf
      · cases h
  | succ fuel ih =>
      intro g pending visited g2 h htr hwf
      rcases pending with _ | ⟨i, rest⟩
      · simp only [build_loop] at h
        cases h
        exact hwf
      · simp only [build_loop] at h
        rcases hg : g.nodes.get? i with _ | nd
        · simp only [hg] at h
          exact ih g rest visited g2 h htr hwf
        · simp only [hg] at h
          split at h
          · exact ih g rest visited g2 h htr hwf
          · have htr2 : track_nonneg (expand_node g i).tracking_aut := by
              rw [(expand_node_ext g i).2.1]
              exact htr
            exact ih _ _ _ g2 h htr2 (expand_node_wf g i htr hwf)

theorem build_game_wf (fuel : Nat) (arena : Arena) (npa : NPA) (g : Game)
    (htr : track_nonneg npa) (h : build_game fuel arena npa = some g) :
    game_wf g := by
  unfold build_game at h
  dsimp only at h
  rcases hgn : get_node ⟨arena, npa, []⟩ 0
      ((((npa.states.get? 0).map (·.idx)).getD 0)) GSym.nosym with ⟨i0, g1⟩
  simp only [hgn] at h
  have hwf0 : game_wf (⟨arena, npa, []⟩ : Game) := by
    intro k nd hk
    simp at hk
  have htr1 : track_nonneg g1.tracking_aut := by
    have := (get_node_ext ⟨arena, npa, []⟩ 0
      ((((npa.states.get? 0).map (·.idx)).getD 0)) GSym.nosym).1.2.1
    rw [hgn] at this
    dsimp only at this
    rw [this]
    exact htr
  have hwf1 : game_wf g1 := by
    have := get_node_wf ⟨arena, npa, []⟩ 0
      ((((npa.states.get? 0).map (·.idx)).getD 0)) GSym.nosym htr hwf0
    rw [hgn] at this
    exact this
  exact build_loop_wf fuel g1 [i0] [] g h htr1 hwf1

/-! ## Priorities of built games are non-negative -/

theorem alternation_level_ge (f : Formula) : -1 ≤ alternation_level f := by
  cases f <;> simp only [alternation_level]
  case mu x b =>
    have h : (0 : Int) ≤ (((alternation_depth (.mu x b) + 1) / 2 : Nat) : Int) :=
      Int.natCast_nonneg _
    omega
  case nu x b =>
    have h : (0 : Int) ≤ (((alternation_depth (.nu x b) / 2 : Nat)) : Int) :=
      Int.natCast_nonneg _
    omega
  all_goals omega

theorem get_priority_ge (f : Formula) : -1 ≤ get_priority f := by
  unfold get_priority
  split
  · omega
  · split
    · omega
    · split
      · exact alternation_level_ge _
      · exact alternation_level_ge _
      · omega

/-- Every state's formula priority Ω′ is at least −1. -/
def omegap_lb (states : List AState) : Prop :=
  ∀ s, s ∈ states → -1 ≤ s.omegap

theorem get_state_omegap_lb (states : List AState) (f : Formula)
    (h : omegap_lb states) : omegap_lb (get_state states f).2 := by
  unfold get_state
  rcases hf : apta_find states f with _ | i
  · simp only [hf]
    intro s hs
    rcases List.mem_append.mp hs with h1 | h1
    · exact h s h1
    · rcases List.mem_singleton.mp h1 with rfl
      exact get_priority_ge f
  · simp only [hf]
    exact h

theorem add_transition_omegap_lb (states : List AState) (i : Nat) (lbl : ELabel)
    (tf : Formula) (h : omegap_lb states) :
    omegap_lb (add_transition states i lbl tf) := by
  unfold add_transition
  intro s hs
  rcases mem_modify_at _ _ _ s hs with h1 | ⟨y, hy, hsy⟩
  · exact get_state_omegap_lb states tf h s h1
  · rw [hsy]
    exact get_state_omegap_lb states tf h y hy

theorem expand_state_omegap_lb (states : List AState) (i : Nat)
    (out : List AState) (h : expand_state states i = some out)
    (hl : omegap_lb states) : omegap_lb out := by
  unfold expand_state at h
  rcases hv : (states.get? i).map (·.value) with _ | f
  · rw [hv] at h; cases h
  · rw [hv] at h
    cases f
    case lit b =>
      cases h
      exact add_transition_omegap_lb _ _ _ _ hl
    case prop p =>
      cases h
      exact add_transition_omegap_lb _ _ _ _ (add_transition_omegap_lb _ _ _ _ hl)
    case var x => cases h
    case neg f1 =>
      cases f1
      case prop p =>
        cases h
        exact add_transition_omegap_lb _ _ _ _ (add_transition_omegap_lb _ _ _ _ hl)
      all_goals cases h
    case and f1 f2 =>
      cases h
      exact add_transition_omegap_lb _ _ _ _ (add_transition_omegap_lb _ _ _ _ hl)
    case or f1 f2 =>
      cases h
      exact add_transition_omegap_lb _ _ _ _ (add_transition_omegap_lb _ _ _ _ hl)
    case dia f1 =>
      cases h
      exact add_transition_omegap_lb _ _ _ _ hl
    case box f1 =>
      cases h
      exact add_transition_omegap_lb _ _ _ _ hl
    case mu x b =>
      cases h
      exact add_transition_omegap_lb _ _ _ _ hl
    case nu x b =>
      cases h
      exact add_transition_omegap_lb _ _ _ _ hl

theorem from_formula_aux_omegap_lb :
    ∀ (fuel : Nat) (states : List AState) (k : Nat) (out : List AState),
      from_formula_aux fuel states k = some out → omegap_lb states →
      omegap_lb out := by
  intro fuel
  induction fuel with
  | zero =>
      intro states k out h hl
      simp only [from_formula_aux] at h
      split at h
      · cases h
      · cases h; exact hl
  | succ fuel ih =>
      intro states k out h hl
      simp only [from_formula_aux] at h
      split at h
      · rcases he : expand_state states k with _ | s2
        · rw [he] at h; cases h
        · rw [he] at h
          dsimp only [Option.bind] at h
          exact ih s2 (k + 1) out h (expand_state_omegap_lb states k s2 he hl)
      · cases h; exact hl

theorem apta_from_formula_omegap_lb (fuel : Nat) (f : Formula)
    (out : List AState) (h : apta_from_formula fuel f = some out) :
    omegap_lb out := by
  apply from_formula_aux_omegap_lb fuel _ 0 out h
  apply get_state_omegap_lb [] f
  intro s hs
  cases hs

theorem length_map_idx_from {α : Type} (g : Nat → α → α) :
    ∀ (l : List α) (k : Nat), (map_idx_from k g l).length = l.length := by
  intro l
  induction l with
  | nil => intro k; rfl
  | cons x xs ih => intro k; simp [map_idx_from, ih (k + 1)]

theorem compute_omega_lb (states : List AState) (hl : omegap_lb states) :
    ∀ i, i < (compute_total_priority states).length →
      -1 ≤ omega_at (compute_total_priority states) i := by
  intro i hi
  have hlen : (compute_total_priority states).length = states.length :=
    length_map_idx_from _ states 0
  rw [omega_at_compute states i (by omega)]
  apply total_priority_ge states i (by omega)
  intro q hq
  unfold omegap_at
  rcases hs : states.get? q with _ | st
  · simp
  · simp only [hs, Option.map_some', Option.getD_some]
    exact hl st (List.get?_mem hs)

theorem get_state_omega_lb (states : List AState) (f : Formula)
    (h : ∀ i, i < states.length → -1 ≤ omega_at states i) :
    ∀ i, i < ((get_state states f).2).length →
      -1 ≤ omega_at (get_state states f).2 i := by
  unfold get_state
  rcases hf : apta_find states f with _ | j
  · simp only [hf]
    intro i hi
    by_cases hik : i < states.length
    · unfold omega_at
      rw [List.get?_append hik]
      exact h i hik
    · have hieq : i = states.length := by
        rw [List.length_append] at hi
        simp at hi
        omega
      subst hieq
      unfold omega_at
      rw [List.get?_concat_length]
      simp [mk_state]
  · simp only [hf]
    exact h

theorem npa_from_apta_track_nonneg (aut : List AState)
    (h : ∀ i, i < aut.length → -1 ≤ omega_at aut i) :
    track_nonneg (npa_from_apta aut) := by
  intro st hst
  unfold npa_from_apta at hst
  dsimp only at hst
  rcases List.mem_map.mp hst with ⟨i, hi, rfl⟩
  have hilt : i < aut.length := List.mem_range.mp hi
  have := h i hilt
  dsimp only
  omega

/-- Unfolding of the pipeline `ParityGame.from_formula`. -/
theorem parity_game_from_formula_elim (fuel : Nat) (f : Formula) (g : Game)
    (h : parity_game_from_formula fuel f = some g) :
    ∃ states0 ar,
      apta_from_formula fuel f = some states0 ∧
      emptyness_arena fuel (compute_total_priority states0) f = some ar ∧
      build_game fuel ar.1 (npa_from_apta ar.2) = some g := by
  unfold parity_game_from_formula at h
  rcases ha : apta_from_formula fuel f with _ | states0
  · rw [ha] at h; cases h
  · rw [ha] at h
    dsimp only [Option.bind] at h
    rcases he : emptyness_arena fuel (compute_total_priority states0) f with _ | ar
    · rw [he] at h; cases h
    · rw [he] at h
      dsimp only [Option.bind] at h
      exact ⟨states0, ar, rfl, he, h⟩

theorem emptyness_arena_snd (fuel : Nat) (aut : List AState) (f : Formula)
    (ar : Arena × List AState) (h : emptyness_arena fuel aut f = some ar) :
    ar.2 = (get_state aut f).2 := by
  unfold emptyness_arena at h
  dsimp only at h
  rcases hl : arena_loop (get_state aut f).2 fuel
      (get_position (get_state aut f).2 ⟨[], []⟩ [(get_state aut f).1] none).2
      [(get_position (get_state aut f).2 ⟨[], []⟩ [(get_state aut f).1] none).1] []
    with _ | a
  · rw [hl] at h; cases h
  · rw [hl] at h
    dsimp only [Option.map] at h
    cases h
    rfl

/-- In a successfully built pipeline the tracking automaton has non-negative
priorities. -/
theorem pipeline_track_nonneg (fuel : Nat) (f : Formula)
    (states0 : List AState) (ar : Arena × List AState)
    (ha : apta_from_formula fuel f = some states0)
    (he : emptyness_arena fuel (compute_total_priority states0) f = some ar) :
    track_nonneg (npa_from_apta ar.2) := by
  apply npa_from_apta_track_nonneg
  rw [emptyness_arena_snd fuel _ f ar he]
  apply get_state_omega_lb
  exact compute_omega_lb states0 (apta_from_formula_omegap_lb fuel f states0 ha)

/-- C8: the emitted PGSolver text has header `parity N;` with N the number of
nodes, followed by one line per node carrying its priority, its player bit
(0 for ◇, 1 for ☐) and its successor indices, all in 0..N−1; a node without
successors is emitted as a self-loop on itself with priority 1 − π, and every
emitted priority is non-negative. -/
theorem pgsolver_emission_spec (fuel : Nat) (f : Formula) (g : Game)
    (h : parity_game_from_formula fuel f = some g) :
    to_pgsolver_format g =
      "parity " ++ toString g.nodes.length ++ ";\n" ++
        String.join ((pg_lines g).map render_line) ∧
    (pg_lines g).length = g.nodes.length ∧
    ∀ k nd, g.nodes.get? k = some nd →
      ∃ line, (pg_lines g).get? k = some line ∧
        line.idx = k ∧
        line.player = (if nd.player then 0 else 1) ∧
        (nd.successors = [] →
          line.succs = [k] ∧
          line.priority = 1 - (if nd.player then (0 : Int) else 1)) ∧
        (nd.successors ≠ [] →
          line.succs = nd.successors ∧ line.priority = nd.priority) ∧
        (∀ j, j ∈ line.succs → j < g.nodes.length) ∧
        0 ≤ line.priority := by
  obtain ⟨states0, ar, ha, he, hb⟩ := parity_game_from_formula_elim fuel f g h
  have htr := pipeline_track_nonneg fuel f states0 ar ha he
  have hwf := build_game_wf fuel ar.1 (npa_from_apta ar.2) g htr hb
  refine ⟨rfl, by simp [pg_lines], ?_⟩
  intro k nd hk
  obtain ⟨hidx, hpr, hsucc⟩ := hwf k nd hk
  have hklt : k < g.nodes.length := (List.get?_eq_some.mp hk).1
  unfold pg_lines
  rw [List.get?_map, hk]
  dsimp only [Option.map]
  by_cases hse : nd.successors = []
  · refine ⟨_, rfl, ?_, ?_, ?_, ?_, ?_, ?_⟩
    · simp [hse, hidx]
    · simp [hse]
    · intro _
      constructor
      · simp [hse, hidx]
      · cases hp : nd.player <;> simp [hse, hp]
    · intro hc
      exact absurd hse hc
    · intro j hj
      simp [hse] at hj
      rw [hj, hidx]
      exact hklt
    · cases hp : nd.player <;> simp [hse, hp]
  · refine ⟨_, rfl, ?_, ?_, ?_, ?_, ?_, ?_⟩
    · simp [hse, hidx]
    · simp [hse]
    · intro hc
      exact absurd hc hse
    · intro _
      simp [hse]
    · intro j hj
      simp [hse] at hj
      exact hsucc j hj
    · simp [hse]
      exact hpr

/-- Witness for the PGSolver emission specification, at the formula ⊤. -/
theorem pgsolver_emission_spec_witness :
    (parity_game_from_formula 64 (.lit true)).isSome = true ∧
    ∃ line,
      (pg_lines ((parity_game_from_formula 64 (.lit true)).getD ⟨⟨[], []⟩, ⟨[]⟩, []⟩)).get? 0 =
        some line ∧ 0 ≤ line.priority := by
  refine ⟨by decide, ?_⟩
  have h := pgsolver_emission_spec 64 (.lit true)
    ((parity_game_from_formula 64 (.lit true)).getD ⟨⟨[], []⟩, ⟨[]⟩, []⟩) (by decide)
  obtain ⟨-, -, h3⟩ := h
  have hk : ((parity_game_from_formula 64 (.lit true)).getD
      ⟨⟨[], []⟩, ⟨[]⟩, []⟩).nodes.get? 0 =
      some (((parity_game_from_formula 64 (.lit true)).getD
        ⟨⟨[], []⟩, ⟨[]⟩, []⟩).nodes.getD 0 ⟨0, 0, 0, GSym.nosym, false, 0, []⟩) := by decide
  obtain ⟨line, hl1, -, -, -, -, -, hl7⟩ := h3 0 _ hk
  exact ⟨line, hl1, hl7⟩

/-! ## The initial node of a built game -/

/-- Fields of an arena position other than its edge list. -/
def pos_frame (a b : Position) : Prop :=
  b.states = a.states ∧ b.symbol = a.symbol ∧ b.is_diamond = a.is_diamond

/-- Arena construction only appends positions and edges. -/
def arena_ext (a a2 : Arena) : Prop :=
  a.positions.length ≤ a2.positions.length ∧
  ∀ k p, a.positions.get? k = some p →
    ∃ p2, a2.positions.get? k = some p2 ∧ pos_frame p p2

theorem arena_ext_refl (a : Arena) : arena_ext a a :=
  ⟨le_rfl, fun _ p h => ⟨p, h, rfl, rfl, rfl⟩⟩

theorem arena_ext_trans {a b c : Arena}
    (h1 : arena_ext a b) (h2 : arena_ext b c) : arena_ext a c := by
  refine ⟨le_trans h1.1 h2.1, ?_⟩
  intro k p h
  obtain ⟨p2, hp2, f2⟩ := h1.2 k p h
  obtain ⟨p3, hp3, f3⟩ := h2.2 k p2 hp2
  exact ⟨p3, hp3, f3.1.trans f2.1, f3.2.1.trans f2.2.1, f3.2.2.trans f2.2.2⟩

theorem get_position_ext (aut : List AState) (arena : Arena)
    (sts : List Nat) (sym : Option (List (String × Bool))) :
    arena_ext arena (get_position aut arena sts sym).2 := by
  unfold get_position
  rcases hf : find_idx (fun p => decide (p.states = sts ∧ p.symbol = sym))
      arena.positions with _ | i
  · simp only [hf]
    refine ⟨by simp, ?_⟩
    intro k p h
    refine ⟨p, ?_, rfl, rfl, rfl⟩
    rw [List.get?_append (List.get?_eq_some.mp h).1]
    exact h
  · simp only [hf]
    exact arena_ext_refl arena

theorem arena_ext_set_dchoices (a : Arena) (x : List (List (Nat × Nat))) :
    arena_ext a { a with d_choices := x } :=
  ⟨le_rfl, fun _ p h => ⟨p, h, rfl, rfl, rfl⟩⟩

theorem arena_ext_modify_next (a : Arena) (fromIdx : Nat) (g : Position → Position)
    (hg : ∀ p, pos_frame p (g p)) :
    arena_ext a { a with positions := modify_at a.positions fromIdx g } := by
  refine ⟨by rw [length_modify_at], ?_⟩
  intro k p h
  dsimp only
  rw [get_modify_at]
  by_cases hk : k = fromIdx
  · subst hk
    rw [if_pos rfl, h]
    exact ⟨g p, rfl, hg p⟩
  · rw [if_neg hk]
    exact ⟨p, h, rfl, rfl, rfl⟩

theorem arena_add_transition_ext (aut : List AState) (arena : Arena)
    (fromIdx : Nat) (label : EdgeLabel) (to_states : List Nat)
    (symbol : Option (List (String × Bool))) (pending visited : List Nat) :
    arena_ext arena
      (arena_add_transition aut arena fromIdx label to_states symbol pending visited).1 := by
  unfold arena_add_transition
  have h1 := get_position_ext aut arena to_states symbol
  have h2 := arena_ext_modify_next (get_position aut arena to_states symbol).2 fromIdx
    (fun p => { p with next := p.next ++ [(label, (get_position aut arena to_states symbol).1)] })
    (fun p => ⟨rfl, rfl, rfl⟩)
  have h3 := arena_ext_trans h1 h2
  dsimp only
  split
  · exact h3
  · exact h3

theorem arena_expand_ext (aut : List AState) (arena : Arena) (i : Nat)
    (pending visited : List Nat) :
    arena_ext arena (arena_expand aut arena i pending visited).1 := by
  have hR2 : ∀ (x y z : Arena × List Nat),
      arena_ext x.1 y.1 → arena_ext y.1 z.1 → arena_ext x.1 z.1 :=
    fun x y z hxy hyz => arena_ext_trans hxy hyz
  have hRr : ∀ (x : Arena × List Nat), arena_ext x.1 x.1 :=
    fun x => arena_ext_refl x.1
  unfold arena_expand
  rcases hg : arena.positions.get? i with _ | node
  · simp only [hg]
    exact arena_ext_refl arena
  · simp only [hg]
    rcases hsym : node.symbol with _ | p
    · simp only [hsym]
      exact foldl_preserves (fun x y => arena_ext x.1 y.1) hRr hR2 _
        (fun acc sigma =>
          arena_add_transition_ext aut acc.1 i (.sigma sigma) node.states (some sigma)
            acc.2 visited)
        (extract_alphabet aut node.states) (arena, pending)
    · simp only [hsym]
      split
      · refine foldl_preserves (fun x y => arena_ext x.1 y.1) hRr hR2 _ ?_ _ (arena, pending)
        intro acc1 successors
        refine foldl_preserves (fun x y => arena_ext x.1 y.1) hRr hR2 _ ?_ _ acc1
        intro acc2 combo
        dsimp only
        split
        · exact arena_ext_trans (arena_ext_set_dchoices acc2.1 _)
            (arena_add_transition_ext aut _ i _ _ (some p) acc2.2 visited)
        · exact arena_add_transition_ext aut acc2.1 i _ _ (some p) acc2.2 visited
      · split
        · refine foldl_preserves (fun x y => arena_ext x.1 y.1) hRr hR2 _ ?_ _ (arena, pending)
          intro acc q
          exact arena_add_transition_ext aut acc.1 i (.stateq q) _ none acc.2 visited
        · split
          · exact arena_ext_refl arena
          · exact arena_add_transition_ext aut arena i .nolab _ none pending visited

theorem arena_loop_ext :
    ∀ (fuel : Nat) (aut : List AState) (arena : Arena)
      (pending visited : List Nat) (out : Arena),
      arena_loop aut fuel arena pending visited = some out →
      arena_ext arena out := by
  intro fuel
  induction fuel with
  | zero =>
      intro aut arena pending visited out h
      simp only [arena_loop] at h
      split at h
      · cases h; exact arena_ext_refl _
      · cases h
  | succ fuel ih =>
      intro aut arena pending visited out h
      rcases pending with _ | ⟨i, rest⟩
      · simp only [arena_loop] at h
        cases h
        exact arena_ext_refl _
      · simp only [arena_loop] at h
        split at h
        · exact ih aut arena rest visited out h
        · exact arena_ext_trans (arena_expand_ext aut arena i rest (i :: visited))
            (ih aut _ _ _ out h)

/-- The formula stored at state index `k`. -/
def value_at (states : List AState) (k : Nat) : Option Formula :=
  (states.get? k).map (·.value)

theorem get_state_value_at (states : List AState) (f v : Formula) (k : Nat)
    (h : value_at states k = some v) :
    value_at (get_state states f).2 k = some v := by
  unfold get_state
  rcases hf : apta_find states f with _ | i
  · simp only [hf]
    unfold value_at at h ⊢
    rcases hk : states.get? k with _ | s
    · rw [hk] at h; cases h
    · rw [List.get?_append (List.get?_eq_some.mp hk).1, hk]
      rw [hk] at h
      exact h
  · simp only [hf]
    exact h

theorem add_transition_value_at (states : List AState) (i : Nat) (lbl : ELabel)
    (tf : Formula) (v : Formula) (k : Nat) (h : value_at states k = some v) :
    value_at (add_transition states i lbl tf) k = some v := by
  unfold add_transition
  dsimp only
  have h2 := get_state_value_at states tf v k h
  unfold value_at at h2 ⊢
  rw [get_modify_at]
  by_cases hk : k = i
  · subst hk
    rw [if_pos rfl]
    rcases hg : (get_state states tf).2.get? k with _ | s
    · rw [hg] at h2; cases h2
    · rw [hg] at h2
      simpa using h2
  · rw [if_neg hk]
    exact h2

theorem expand_state_value_at (states : List AState) (i : Nat)
    (out : List AState) (h : expand_state states i = some out)
    (v : Formula) (k : Nat) (hv : value_at states k = some v) :
    value_at out k = some v := by
  unfold expand_state at h
  rcases hval : (states.get? i).map (·.value) with _ | f
  · rw [hval] at h; cases h
  · rw [hval] at h
    cases f
    case lit b =>
      cases h
      exact add_transition_value_at _ _ _ _ v k hv
    case prop p =>
      cases h
      exact add_transition_value_at _ _ _ _ v k (add_transition_value_at _ _ _ _ v k hv)
    case var x => cases h
    case neg f1 =>
      cases f1
      case prop p =>
        cases h
        exact add_transition_value_at _ _ _ _ v k (add_transition_value_at _ _ _ _ v k hv)
      all_goals cases h
    case and f1 f2 =>
      cases h
      exact add_transition_value_at _ _ _ _ v k (add_transition_value_at _ _ _ _ v k hv)
    case or f1 f2 =>
      cases h
      exact add_transition_value_at _ _ _ _ v k (add_transition_value_at _ _ _ _ v k hv)
    case dia f1 =>
      cases h
      exact add_transition_value_at _ _ _ _ v k hv
    case box f1 =>
      cases h
      exact add_transition_value_at _ _ _ _ v k hv
    case mu x b =>
      cases h
      exact add_transition_value_at _ _ _ _ v k hv
    case nu x b =>
      cases h
      exact add_transition_value_at _ _ _ _ v k hv

theorem from_formula_aux_value_at :
    ∀ (fuel : Nat) (states : List AState) (j : Nat) (out : List AState),
      from_formula_aux fuel states j = some out →
      ∀ (v : Formula) (k : Nat), value_at states k = some v →
        value_at out k = some v := by
  intro fuel
  induction fuel with
  | zero =>
      intro states j out h v k hv
      simp only [from_formula_aux] at h
      split at h
      · cases h
      · cases h; exact hv
  | succ fuel ih =>
      intro states j out h v k hv
      simp only [from_formula_aux] at h
      split at h
      · rcases he : expand_state states j with _ | s2
        · rw [he] at h; cases h
        · rw [he] at h
          dsimp only [Option.bind] at h
          exact ih s2 (j + 1) out h v k (expand_state_value_at states j s2 he v k hv)
      · cases h; exact hv

theorem apta_from_formula_value0 (fuel : Nat) (f : Formula)
    (out : List AState) (h : apta_from_formula fuel f = some out) :
    value_at out 0 = some f := by
  apply from_formula_aux_value_at fuel _ 0 out h
  unfold get_state apta_find
  rfl

theorem compute_value_at (states : List AState) (k : Nat) :
    value_at (compute_total_priority states) k = value_at states k := by
  unfold value_at compute_total_priority
  rw [get_map_idx_from]
  rcases hk : states.get? k with _ | s
  · rfl
  · rfl

theorem apta_find_zero (states : List AState) (f : Formula)
    (h : value_at states 0 = some f) : apta_find states f = some 0 := by
  cases states with
  | nil => cases h
  | cons s rest =>
      unfold value_at at h
      simp only [List.get?_cons_zero, Option.map_some'] at h
      have hv : s.value = f := by
        cases h
        rfl
      unfold apta_find find_idx
      rw [if_pos (by simp [hv])]

theorem npa_idx0 (aut : List AState) :
    ((((npa_from_apta aut).states.get? 0).map (·.idx)).getD 0) = 0 := by
  unfold npa_from_apta
  dsimp only
  rw [List.get?_map]
  by_cases hl : 0 < aut.length
  · rw [List.get?_range hl]
    rfl
  · have h0 : aut.length = 0 := by omega
    rw [h0]
    rfl

/-- C10: in every game built by `ParityGame.build`, node 0 is the initial
node: arena position 0 — the macro-state ({q₀}, None) with q₀ = 0 the root
formula's state — tracking state 0 and symbol `None`. -/
theorem build_initial_node_spec (fuel : Nat) (f : Formula) (g : Game)
    (h : parity_game_from_formula fuel f = some g) :
    ∃ nd, g.nodes.get? 0 = some nd ∧ nd.idx = 0 ∧ nd.arena_position = 0 ∧
      nd.tracking_state = 0 ∧ nd.symbol = GSym.nosym ∧
      ∃ pos, g.arena.positions.get? 0 = some pos ∧ pos.states = [0] ∧
        pos.symbol = none := by
  obtain ⟨states0, ar, ha, he, hb⟩ := parity_game_from_formula_elim fuel f g h
  have harena : g.arena = ar.1 :=
    (build_game_ext fuel ar.1 (npa_from_apta ar.2) g hb).1
  -- the root formula is interned at state 0
  have hval0 : value_at (compute_total_priority states0) 0 = some f := by
    rw [compute_value_at]
    exact apta_from_formula_value0 fuel f states0 ha
  have hfind : apta_find (compute_total_priority states0) f = some 0 :=
    apta_find_zero _ f hval0
  have hgs : get_state (compute_total_priority states0) f =
      (0, compute_total_priority states0) := by
    unfold get_state
    rw [hfind]
  -- the arena's initial position
  unfold emptyness_arena at he
  dsimp only at he
  rw [hgs] at he
  dsimp only at he
  rcases hloop : arena_loop (compute_total_priority states0) fuel
      (get_position (compute_total_priority states0) ⟨[], []⟩ [0] none).2
      [(get_position (compute_total_priority states0) ⟨[], []⟩ [0] none).1] []
    with _ | aout
  · rw [hloop] at he; cases he
  · rw [hloop] at he
    dsimp only [Option.map] at he
    have hpos0 : (get_position (compute_total_priority states0) ⟨[], []⟩ [0] none).2.positions.get? 0 =
        some ⟨[0], none,
          (none : Option (List (String × Bool))).isNone ||
            ([0].any (fun q =>
              (((compute_total_priority states0).get? q).map (·.localq)).getD false)), []⟩ := rfl
    have hext := arena_loop_ext fuel (compute_total_priority states0) _ _ [] aout hloop
    obtain ⟨p2, hp2, f2⟩ := hext.2 0 _ hpos0
    -- the game's initial node
    have ht0 := npa_idx0 ar.2
    unfold build_game at hb
    dsimp only at hb
    rw [ht0] at hb
    have hgn : get_node ⟨ar.1, npa_from_apta ar.2, []⟩ 0 0 GSym.nosym =
        (0, ⟨ar.1, npa_from_apta ar.2,
          [⟨0, 0, 0, GSym.nosym,
            ((ar.1.positions.get? 0).map (·.is_diamond)).getD false,
            (((npa_from_apta ar.2).states.get? 0).map (·.priority)).getD 0 + 1, []⟩]⟩) := rfl
    rw [hgn] at hb
    dsimp only at hb
    have hgext := build_loop_ext fuel _ [0] [] g hb
    have hn0 : (⟨ar.1, npa_from_apta ar.2,
        [⟨0, 0, 0, GSym.nosym,
          ((ar.1.positions.get? 0).map (·.is_diamond)).getD false,
          (((npa_from_apta ar.2).states.get? 0).map (·.priority)).getD 0 + 1, []⟩]⟩ : Game).nodes.get? 0 =
        some ⟨0, 0, 0, GSym.nosym,
          ((ar.1.positions.get? 0).map (·.is_diamond)).getD false,
          (((npa_from_apta ar.2).states.get? 0).map (·.priority)).getD 0 + 1, []⟩ := rfl
    obtain ⟨nd2, hnd2, fr⟩ := hgext.2.2.2 0 _ hn0
    refine ⟨nd2, hnd2, fr.1, fr.2.1, fr.2.2.1, fr.2.2.2.1, ?_⟩
    refine ⟨p2, ?_, f2.1, f2.2.1⟩
    rw [harena]
    have har1 : ar.1 = aout := by
      cases he
      rfl
    rw [har1]
    exact hp2

/-- Witness for the initial-node specification, at the formula ⊤. -/
theorem build_initial_node_spec_witness :
    ∃ nd, ((parity_game_from_formula 64 (.lit true)).getD
        ⟨⟨[], []⟩, ⟨[]⟩, []⟩).nodes.get? 0 = some nd ∧
      nd.idx = 0 ∧ nd.arena_position = 0 ∧ nd.tracking_state = 0 ∧
      nd.symbol = GSym.nosym ∧
      ∃ pos, ((parity_game_from_formula 64 (.lit true)).getD
          ⟨⟨[], []⟩, ⟨[]⟩, []⟩).arena.positions.get? 0 = some pos ∧
        pos.states = [0] ∧ pos.symbol = none :=
  build_initial_node_spec 64 (.lit true) _ (by decide)

end MuCalc
